import Mathlib

/-!
# LRU cache (`data-structures/lru-cache.go`)

A shallow embedding of the Go `LRUCache`: a hash map from keys to list nodes
together with a doubly linked list that records recency (head = most recently
used, tail = least recently used).

Go pointers `*listNode` are modelled as `Option Nat`: `none` is `nil`, and
`some a` is the address `a` of a node in the node store of the state.  A Go
run-time panic (nil dereference) is the result `none` of an operation.
Go `int` keys and values are never used in arithmetic, so they are `Int`.
-/

namespace LRU

/-- The Go struct `listNode`: key, value and the two links. -/
structure listNode where
  key : Int
  value : Int
  prev : Option Nat
  next : Option Nat
deriving DecidableEq

/-- The Go struct `LRUCache`, together with the node store its pointers point
into.  `cache` is the Go `map[int]*listNode` as an association list; `store`
holds the allocated nodes, the node at address `a` being `store[a]`. -/
structure LRUCache where
  capacity : Int
  cache : List (Int × Option Nat)
  head : Option Nat
  tail : Option Nat
  store : List listNode
deriving DecidableEq

/-- `NewLRUCache(capacity)`: an empty map, `head` and `tail` nil. -/
def NewLRUCache (capacity : Int) : LRUCache :=
  { capacity := capacity, cache := [], head := none, tail := none, store := [] }

/-- Reading through a pointer: `none` when the pointer is nil (a Go panic). -/
def deref (c : LRUCache) (p : Option Nat) : Option listNode :=
  match p with
  | none => none
  | some a => c.store[a]?

/-- Writing a field through a pointer, `p.field = x`: the node `p` points to
is replaced by `f` of it; `none` when the pointer is nil (a Go panic). -/
def assign (c : LRUCache) (p : Option Nat) (f : listNode → listNode) : Option LRUCache :=
  match p with
  | none => none
  | some a =>
    match c.store[a]? with
    | none => none
    | some nd => some { c with store := c.store.set a (f nd) }

/-- The method `addHead(n)`. -/
def addHead (c : LRUCache) (n : Option Nat) : Option LRUCache := do
  let c1 ← assign c n (fun x => { x with prev := none })
  let c2 ← assign c1 n (fun x => { x with next := c1.head })
  let c3 ← (if c2.head ≠ none then assign c2 c2.head (fun x => { x with prev := n }) else some c2)
  let c4 := { c3 with head := n }
  some (if c4.tail = none then { c4 with tail := n } else c4)

/-- The method `moveToHead(n)`. -/
def moveToHead (c : LRUCache) (n : Option Nat) : Option LRUCache :=
  if n = c.head then some c else do
    let x ← deref c n
    let c1 ← (if x.prev ≠ none then assign c x.prev (fun y => { y with next := x.next }) else some c)
    let x1 ← deref c1 n
    let c2 ← (if x1.next ≠ none then assign c1 x1.next (fun y => { y with prev := x1.prev }) else some c1)
    let c3 ← (if n = c2.tail then (deref c2 n).map (fun x2 => { c2 with tail := x2.prev }) else some c2)
    let c4 ← assign c3 n (fun y => { y with prev := none })
    let c5 ← assign c4 n (fun y => { y with next := c4.head })
    let c6 ← (if c5.head ≠ none then assign c5 c5.head (fun y => { y with prev := n }) else some c5)
    some { c6 with head := n }

/-- The method `popTail()`: the new state and the returned pointer. -/
def popTail (c : LRUCache) : Option (LRUCache × Option Nat) :=
  if c.tail = none then some (c, none) else do
    let n := c.tail
    let t ← deref c c.tail
    let c1 ← (if t.prev ≠ none then assign c t.prev (fun y => { y with next := none })
      else some { c with head := none })
    let t1 ← deref c1 c1.tail
    some ({ c1 with tail := t1.prev }, n)

/-- The method `Get(key)`: the new state and the returned value. -/
def Get (c : LRUCache) (key : Int) : Option (LRUCache × Int) :=
  match c.cache.lookup key with
  | none => some (c, -1)
  | some n => do
    let c1 ← moveToHead c n
    let x ← deref c1 n
    some (c1, x.value)

/-- The method `Put(key, value)`.  A new node is allocated at the first free
address of the store. -/
def Put (c : LRUCache) (key : Int) (value : Int) : Option LRUCache :=
  match c.cache.lookup key with
  | some n => do
    let c1 ← assign c n (fun x => { x with value := value })
    moveToHead c1 n
  | none => do
    let n : Option Nat := some c.store.length
    let c1 : LRUCache :=
      { c with store := c.store ++ [{ key := key, value := value, prev := none, next := none }] }
    let c2 : LRUCache := { c1 with cache := (key, n) :: c1.cache.filter (fun e => e.1 ≠ key) }
    let c3 ← addHead c2 n
    if (c3.cache.length : Int) > c3.capacity then do
      let r ← popTail c3
      let t ← deref r.1 r.2
      some { r.1 with cache := r.1.cache.filter (fun e => e.1 ≠ t.key) }
    else some c3

/-- The addresses met from pointer `p` following `next` links, at most `fuel`
of them. -/
def walk (s : List listNode) : Nat → Option Nat → List Nat
  | 0, _ => []
  | _ + 1, none => []
  | fuel + 1, some a =>
    match s[a]? with
    | none => []
    | some nd => a :: walk s fuel nd.next

/-- The addresses of the nodes of the list, from head to tail. -/
def chain (c : LRUCache) : List Nat :=
  walk c.store c.store.length c.head

/-- The key and value of the node at address `a` (if any). -/
def entryAt (s : List listNode) (a : Nat) : Option (Int × Int) :=
  (s[a]?).map (fun nd => (nd.key, nd.value))

/-- The (key, value) pairs of the nodes of the list, from head to tail. -/
def entries (c : LRUCache) : List (Int × Int) :=
  (chain c).filterMap (entryAt c.store)

/-- The keys of the nodes of the list, from head to tail. -/
def keys (c : LRUCache) : List Int :=
  (entries c).map Prod.fst

/-- The keys of the map. -/
def mapKeys (c : LRUCache) : List Int :=
  c.cache.map Prod.fst

/-- A call of one of the two public methods. -/
inductive Call where
  | put (key : Int) (value : Int)
  | get (key : Int)
deriving DecidableEq

/-- The state after one call. -/
def step (c : LRUCache) : Call → Option LRUCache
  | Call.put k v => Put c k v
  | Call.get k => (Get c k).map Prod.fst

/-- The state after a sequence of calls. -/
def run (c : LRUCache) : List Call → Option LRUCache
  | [] => some c
  | op :: ops => (step c op).bind (fun c1 => run c1 ops)

/-- The states reachable from `NewLRUCache(capacity)` by `Put` and `Get` calls. -/
def Reachable (capacity : Int) (c : LRUCache) : Prop :=
  ∃ calls : List Call, run (NewLRUCache capacity) calls = some c

/-- The key a call touches in state `c`: every `Put` touches its key, a `Get`
touches its key when it finds it in the map. -/
def touched (c : LRUCache) : Call → List Int
  | Call.put k _ => [k]
  | Call.get k => if (c.cache.lookup k).isSome then [k] else []

/-- The keys touched by a sequence of calls started in state `c`, oldest
first. -/
def touches (c : LRUCache) : List Call → List Int
  | [] => []
  | op :: ops =>
    touched c op ++ (match step c op with
      | some c1 => touches c1 ops
      | none => [])

/-- The distinct elements of a list in order of first occurrence. -/
def firstOccurrences : List Int → List Int
  | [] => []
  | k :: rest => k :: (firstOccurrences rest).filter (fun j => j ≠ k)

/-- The recency order of a touch history (oldest touch first): the distinct
keys touched, the most recently touched first. -/
def recencyOrder (ts : List Int) : List Int :=
  firstOccurrences ts.reverse

/-- The time of the last touch of key `k` in a touch history: the 1-based
position of its last occurrence, `0` when `k` was never touched. -/
def lastTouch (ts : List Int) (k : Int) : Nat :=
  ts.length - ts.reverse.indexOf k

/-- The keys that are in the map of `c` and not in the map of `c1`. -/
def evicted (c c1 : LRUCache) : List Int :=
  (mapKeys c).filter (fun j => (c1.cache.lookup j).isNone)

/-- The state `c` with the value of the node `n` points to replaced by `v`
(the state itself when `n` points to no node). -/
def setValue (c : LRUCache) (n : Option Nat) (v : Int) : LRUCache :=
  match assign c n (fun x => { x with value := v }) with
  | none => c
  | some c1 => c1

/-- A node of the list as the invariant sees it: its address, key and value. -/
structure Slot where
  addr : Nat
  key : Int
  value : Int
deriving DecidableEq

/-- The pointer to the first node of a segment, `q` when the segment is empty. -/
def firstAddr (l : List Slot) (q : Option Nat) : Option Nat :=
  match l with
  | [] => q
  | e :: _ => some e.addr

/-- The pointer to the last node of a segment, `p` when the segment is empty. -/
def lastAddr (p : Option Nat) (l : List Slot) : Option Nat :=
  match l.getLast? with
  | none => p
  | some e => some e.addr

/-- The store holds the doubly linked segment `l`: the nodes of `l` carry the
keys and values of their slots, each is linked to its neighbours, the first
one has `prev = p` and the last one has `next = q`. -/
def Seg (s : List listNode) : Option Nat → List Slot → Option Nat → Prop
  | _, [], _ => True
  | p, e :: rest, q =>
    s[e.addr]? = some { key := e.key, value := e.value, prev := p, next := firstAddr rest q }
      ∧ Seg s (some e.addr) rest q

/-- The representation invariant: the list from `head` to `tail` is the
well-formed doubly linked list `l` of distinct nodes with distinct keys, and
the map holds exactly the pairs (key, pointer) of its nodes. -/
structure Inv (c : LRUCache) (l : List Slot) : Prop where
  addrNodup : (l.map Slot.addr).Nodup
  keyNodup : (l.map Slot.key).Nodup
  head : c.head = firstAddr l none
  tail : c.tail = lastAddr none l
  seg : Seg c.store none l none
  map : c.cache.Perm (l.map (fun e => (e.key, some e.addr)))

/-- The (key, value) pairs of a list of slots. -/
def slotEntries (l : List Slot) : List (Int × Int) :=
  l.map (fun e => (e.key, e.value))

/-- The first half of `moveToHead(n)` for `n` not the head: `n` is taken out
of the list. -/
def unlink (c : LRUCache) (n : Option Nat) : Option LRUCache := do
  let x ← deref c n
  let c1 ← (if x.prev ≠ none then assign c x.prev (fun y => { y with next := x.next }) else some c)
  let x1 ← deref c1 n
  let c2 ← (if x1.next ≠ none then assign c1 x1.next (fun y => { y with prev := x1.prev }) else some c1)
  if n = c2.tail then (deref c2 n).map (fun x2 => { c2 with tail := x2.prev }) else some c2

/-- The second half of `moveToHead(n)`: `n` is linked in front of the head. -/
def relink (c : LRUCache) (n : Option Nat) : Option LRUCache := do
  let c4 ← assign c n (fun y => { y with prev := none })
  let c5 ← assign c4 n (fun y => { y with next := c4.head })
  let c6 ← (if c5.head ≠ none then assign c5 c5.head (fun y => { y with prev := n }) else some c5)
  some { c6 with head := n }

/-- The abstract `Get` on the list of (key, value) pairs, most recent first:
the new list and the returned value. -/
def specGet (es : List (Int × Int)) (k : Int) : List (Int × Int) × Int :=
  match es.lookup k with
  | none => (es, -1)
  | some v => ((k, v) :: es.filter (fun e => e.1 ≠ k), v)

/-- The abstract `Put` on the list of (key, value) pairs, most recent first. -/
def specPut (capacity : Int) (es : List (Int × Int)) (k : Int) (v : Int) : List (Int × Int) :=
  match es.lookup k with
  | some _ => (k, v) :: es.filter (fun e => e.1 ≠ k)
  | none => if ((es.length : Int) + 1) > capacity then ((k, v) :: es).dropLast else (k, v) :: es

/-- The abstract state after one call. -/
def specStep (capacity : Int) (es : List (Int × Int)) : Call → List (Int × Int)
  | Call.put k v => specPut capacity es k v
  | Call.get k => (specGet es k).1

/-- The abstract state after a sequence of calls. -/
def specRun (capacity : Int) (es : List (Int × Int)) : List Call → List (Int × Int)
  | [] => es
  | op :: ops => specRun capacity (specStep capacity es op) ops

/-- The outcome of the Go call `NewLRUCache(capacity)`, `none` standing for a
failed construction: the function has one `return` statement, no error result
and no statement that can panic, so the outcome is always its cache. -/
def NewLRUCacheCall (capacity : Int) : Option LRUCache :=
  some (NewLRUCache capacity)

/-- The list part of the representation invariant: from `head` to `tail` the
store holds the well-formed doubly linked list `l` of distinct nodes. -/
structure ListInv (c : LRUCache) (l : List Slot) : Prop where
  addrNodup : (l.map Slot.addr).Nodup
  head : c.head = firstAddr l none
  tail : c.tail = lastAddr none l
  seg : Seg c.store none l none

/-- The state `Put(key, value)` has reached at its overflow check, for a key
that is not in the map: the new node is allocated, entered in the map and
added as head. -/
def putInsert (c : LRUCache) (key : Int) (value : Int) : Option LRUCache :=
  addHead ⟨c.capacity, (key, some c.store.length) :: c.cache.filter (fun e => e.1 ≠ key),
    c.head, c.tail, c.store ++ [⟨key, value, none, none⟩]⟩ (some c.store.length)

/-- The overflow branch of `Put`: `tail := c.popTail()` and then
`delete(c.cache, tail.key)`. -/
def putEvict (c : LRUCache) : Option LRUCache := do
  let r ← popTail c
  let t ← deref r.1 r.2
  some { r.1 with cache := r.1.cache.filter (fun e => e.1 ≠ t.key) }

/-- The keys passed to `Put` by a sequence of calls. -/
def putKeys : List Call → List Int
  | [] => []
  | Call.put k _ :: ops => k :: putKeys ops
  | Call.get _ :: ops => putKeys ops

/-- The splice of the design document: the node is taken out of its position
by patching the links of its neighbours (its former `prev` gets its former
`next` as `next`, its former `next` gets its former `prev` as `prev`), and if
the node was the tail, the tail reference moves to its former `prev`. -/
def specSplice (c : LRUCache) (n : Option Nat) : Option LRUCache := do
  let x ← deref c n
  let c1 ← (match x.prev with
    | none => some c
    | some p => assign c (some p) (fun y => { y with next := x.next }))
  let c2 ← (match x.next with
    | none => some c1
    | some q => assign c1 (some q) (fun y => { y with prev := x.prev }))
  some (if n = c.tail then { c2 with tail := x.prev } else c2)

/-- The `moveToHead` of the design document: nothing when the node is the head,
otherwise the splice followed by `addHead`. -/
def specMoveToHead (c : LRUCache) (n : Option Nat) : Option LRUCache :=
  if n = c.head then some c else (specSplice c n).bind (fun c1 => addHead c1 n)

/-! ## The store and linked segments -/

theorem firstAddr_append (l1 l2 : List Slot) (q : Option Nat) :
    firstAddr (l1 ++ l2) q = firstAddr l1 (firstAddr l2 q) := by
  cases l1 <;> rfl

theorem lastAddr_cons (p : Option Nat) (e : Slot) (l : List Slot) :
    lastAddr p (e :: l) = lastAddr (some e.addr) l := by
  cases l with
  | nil => rfl
  | cons f r =>
    simp only [lastAddr, List.getLast?_cons_cons]
    cases hl : (f :: r).getLast? with
    | none => simp at hl
    | some e => rfl

theorem lastAddr_append (p : Option Nat) (l1 l2 : List Slot) :
    lastAddr p (l1 ++ l2) = lastAddr (lastAddr p l1) l2 := by
  induction l1 generalizing p with
  | nil => rfl
  | cons e r ih => rw [List.cons_append, lastAddr_cons, lastAddr_cons, ih]

theorem Seg_append (s : List listNode) (p q : Option Nat) (l1 l2 : List Slot) :
    Seg s p (l1 ++ l2) q ↔ Seg s p l1 (firstAddr l2 q) ∧ Seg s (lastAddr p l1) l2 q := by
  induction l1 generalizing p with
  | nil => simp [Seg, lastAddr]
  | cons e r ih =>
    rw [List.cons_append]
    simp only [Seg]
    rw [ih, firstAddr_append, lastAddr_cons, and_assoc]

theorem Seg_set_notin (s : List listNode) (p q : Option Nat) (l : List Slot) (a : Nat)
    (x : listNode) (h : a ∉ l.map Slot.addr) : Seg (s.set a x) p l q ↔ Seg s p l q := by
  induction l generalizing p with
  | nil => simp [Seg]
  | cons e r ih =>
    simp only [List.map_cons, List.mem_cons, not_or] at h
    simp only [Seg, ih _ h.2, List.getElem?_set_ne h.1]

theorem Seg_valid (s : List listNode) (p q : Option Nat) (l : List Slot) (h : Seg s p l q) :
    ∀ a ∈ l.map Slot.addr, a < s.length := by
  induction l generalizing p with
  | nil => simp
  | cons e r ih =>
    intro a ha
    simp only [List.map_cons, List.mem_cons] at ha
    rcases ha with rfl | ha
    · exact (List.getElem?_eq_some.mp h.1).1
    · exact ih _ h.2 a ha

theorem Seg_length_le (s : List listNode) (p q : Option Nat) (l : List Slot) (h : Seg s p l q)
    (hn : (l.map Slot.addr).Nodup) : l.length ≤ s.length := by
  have hsub : l.map Slot.addr ⊆ List.range s.length := fun a ha =>
    List.mem_range.mpr (Seg_valid s p q l h a ha)
  have := (List.subperm_of_subset hn hsub).length_le
  simpa using this

theorem walk_of_Seg (s : List listNode) (p : Option Nat) (l : List Slot) (fuel : Nat)
    (h : Seg s p l none) (hf : l.length ≤ fuel) :
    walk s fuel (firstAddr l none) = l.map Slot.addr := by
  induction l generalizing p fuel with
  | nil => cases fuel <;> simp [walk, firstAddr]
  | cons e r ih =>
    cases fuel with
    | zero => simp at hf
    | succ f =>
      simp only [List.length_cons, Nat.add_le_add_iff_right] at hf
      have := ih _ f h.2 hf
      simp only [walk, firstAddr, h.1, List.map_cons, List.cons.injEq, true_and]
      exact this

theorem entryAt_of_Seg (s : List listNode) (p q : Option Nat) (l : List Slot) (h : Seg s p l q) :
    (l.map Slot.addr).filterMap (entryAt s) = slotEntries l := by
  induction l generalizing p with
  | nil => rfl
  | cons e r ih =>
    have := ih _ h.2
    simp [entryAt, h.1, slotEntries] at this ⊢
    exact this

theorem Inv.chain_eq {c : LRUCache} {l : List Slot} (h : Inv c l) :
    chain c = l.map Slot.addr := by
  unfold chain
  rw [h.head]
  exact walk_of_Seg _ _ _ _ h.seg (Seg_length_le _ _ _ _ h.seg h.addrNodup)

theorem Inv.entries_eq {c : LRUCache} {l : List Slot} (h : Inv c l) :
    entries c = slotEntries l := by
  unfold entries
  rw [h.chain_eq]
  exact entryAt_of_Seg _ _ _ _ h.seg

/-! ## The list operations -/

theorem getElem?_set_same {s : List listNode} {a : Nat} {x y : listNode} (h : s[a]? = some x) :
    (s.set a y)[a]? = some y := by
  have := (List.getElem?_eq_some.mp h).1
  simp [List.getElem?_set_self this]

theorem addHead_eq_relink (c : LRUCache) (n : Option Nat) :
    addHead c n = (relink c n).map (fun c6 => if c6.tail = none then { c6 with tail := n } else c6) := by
  unfold addHead relink
  cases h1 : assign c n (fun x => { x with prev := none }) with
  | none => rfl
  | some c1 =>
    cases h2 : assign c1 n (fun x => { x with next := c1.head }) with
    | none => simp [h2]
    | some c2 =>
      by_cases hh : c2.head = none
      · simp [h2, hh]
      · cases h3 : assign c2 c2.head (fun x => { x with prev := n }) with
        | none => simp [h2, h3, hh]
        | some c3 => simp [h2, h3, hh]

theorem moveToHead_eq (c : LRUCache) (n : Option Nat) :
    moveToHead c n = if n = c.head then some c else (unlink c n).bind (fun c3 => relink c3 n) := by
  unfold moveToHead unlink relink
  split
  · rfl
  · simp only [Option.bind_eq_bind, Option.bind_assoc]

theorem lastAddr_mem (a b : Nat) (l : List Slot) (h : lastAddr (some a) l = some b) :
    b = a ∨ b ∈ l.map Slot.addr := by
  unfold lastAddr at h
  cases hl : l.getLast? with
  | none => rw [hl] at h; simp at h; exact Or.inl h.symm
  | some e =>
    rw [hl] at h
    simp at h
    right
    exact List.mem_map.mpr ⟨e, List.mem_of_getLast?_eq_some hl, h⟩

theorem unlink_spec (c : LRUCache) (pre post : List Slot) (x e : Slot)
    (hseg : Seg c.store none (pre ++ x :: e :: post) none)
    (hnd : ((pre ++ x :: e :: post).map Slot.addr).Nodup)
    (htail : c.tail = lastAddr none (pre ++ x :: e :: post)) :
    ∃ c1, unlink c (some e.addr) = some c1 ∧ c1.head = c.head
      ∧ c1.tail = lastAddr none (pre ++ x :: post)
      ∧ c1.cache = c.cache ∧ c1.capacity = c.capacity
      ∧ Seg c1.store none (pre ++ x :: post) none
      ∧ ∃ p0 q0, c1.store[e.addr]? = some { key := e.key, value := e.value, prev := p0, next := q0 } := by
  rw [Seg_append] at hseg
  obtain ⟨hpre, hx, he, hpost⟩ := hseg
  simp only [List.map_append, List.map_cons, List.nodup_append, List.nodup_cons, List.mem_cons,
    not_or, List.disjoint_cons_right] at hnd
  obtain ⟨hndpre, ⟨⟨hxe, hxpost⟩, hepost, hndpost⟩, hxpre, hepre, hdisj⟩ := hnd
  have hex : e.addr ≠ x.addr := fun h => hxe h.symm
  have hx1 : (c.store.set x.addr ⟨x.key, x.value, lastAddr none pre, firstAddr post none⟩)[x.addr]?
      = some ⟨x.key, x.value, lastAddr none pre, firstAddr post none⟩ := getElem?_set_same hx
  cases post with
  | nil =>
    have ht : c.tail = some e.addr := by
      rw [htail, lastAddr_append, lastAddr_cons, lastAddr_cons]; rfl
    simp [unlink, deref, assign, he, hx, List.getElem?_set_ne hxe, ht, firstAddr]
    refine ⟨?_, ?_⟩
    · rw [lastAddr_append, lastAddr_cons]; rfl
    · rw [Seg_append]
      refine ⟨?_, ?_, trivial⟩
      · rw [Seg_set_notin _ _ _ _ _ _ hxpre]; exact hpre
      · exact hx1
  | cons y post1 =>
    simp only [List.map_cons, List.mem_cons, not_or, List.nodup_cons] at hxpost hepost hndpost
    have hy := hpost.1
    have hne : some e.addr ≠ c.tail := by
      rw [htail, lastAddr_append, lastAddr_cons, lastAddr_cons, lastAddr_cons]
      intro h
      rcases lastAddr_mem _ _ _ h.symm with h1 | h1
      · exact hepost.1 h1
      · exact hepost.2 h1
    have hxy : x.addr ≠ y.addr := hxpost.1
    have hye : y.addr ≠ e.addr := fun h => hepost.1 h.symm
    simp [unlink, deref, assign, he, hx, List.getElem?_set_ne hxe, firstAddr, hne,
      List.getElem?_set_ne hxy, hy, List.getElem?_set_ne hye]
    refine ⟨?_, ?_⟩
    · rw [htail]
      simp only [lastAddr_append, lastAddr_cons]
    · rw [Seg_append]
      refine ⟨?_, ?_, ?_, ?_⟩
      · rw [Seg_set_notin, Seg_set_notin _ _ _ _ _ _ hxpre]
        · exact hpre
        · intro h
          exact hdisj h (List.mem_cons_self _ _)
      · rw [List.getElem?_set_ne hxy.symm]
        exact hx1
      · exact getElem?_set_same (x := ⟨y.key, y.value, some e.addr, firstAddr post1 none⟩)
          (by rw [List.getElem?_set_ne hxy]; exact hy)
      · rw [Seg_set_notin _ _ _ _ _ _ hndpost.1, Seg_set_notin _ _ _ _ _ _ hxpost.2]
        exact hpost.2

theorem relink_spec (c : LRUCache) (m : List Slot) (e : Slot) (p0 q0 : Option Nat)
    (hseg : Seg c.store none m none) (hhead : c.head = firstAddr m none)
    (hnd : (m.map Slot.addr).Nodup)
    (hn : e.addr ∉ m.map Slot.addr)
    (hst : c.store[e.addr]? = some { key := e.key, value := e.value, prev := p0, next := q0 }) :
    ∃ c1, relink c (some e.addr) = some c1 ∧ c1.head = some e.addr ∧ c1.tail = c.tail
      ∧ c1.cache = c.cache ∧ c1.capacity = c.capacity ∧ Seg c1.store none (e :: m) none := by
  cases m with
  | nil =>
    simp only [firstAddr] at hhead
    simp [relink, assign, hst, hhead, getElem?_set_same hst, Seg, firstAddr]
  | cons f r =>
    simp only [firstAddr] at hhead
    simp only [List.map_cons, List.mem_cons, not_or, List.nodup_cons] at hn hnd
    have hf := hseg.1
    have hne : e.addr ≠ f.addr := hn.1
    simp [relink, assign, hst, hhead, getElem?_set_same hst, Seg, hne, hf]
    refine ⟨?_, ?_, ?_⟩
    · rw [List.getElem?_set_ne hne.symm, getElem?_set_same hst]
      rfl
    · apply getElem?_set_same (x := { key := f.key, value := f.value, prev := none, next := firstAddr r none })
      rw [List.getElem?_set_ne hne, hf]
    · rw [Seg_set_notin _ _ _ _ _ _ hnd.1, Seg_set_notin _ _ _ _ _ _ hn.2]
      exact hseg.2

theorem firstAddr_mem (l : List Slot) (a : Nat) (h : firstAddr l none = some a) :
    a ∈ l.map Slot.addr := by
  cases l with
  | nil => simp [firstAddr] at h
  | cons e r =>
    simp only [firstAddr, Option.some.injEq] at h
    simp [h]

theorem moveToHead_spec (c : LRUCache) (pre post : List Slot) (e : Slot)
    (hseg : Seg c.store none (pre ++ e :: post) none)
    (hnd : ((pre ++ e :: post).map Slot.addr).Nodup)
    (hhead : c.head = firstAddr (pre ++ e :: post) none)
    (htail : c.tail = lastAddr none (pre ++ e :: post)) :
    ∃ c1, moveToHead c (some e.addr) = some c1 ∧ c1.head = some e.addr
      ∧ c1.tail = lastAddr none (e :: (pre ++ post))
      ∧ c1.cache = c.cache ∧ c1.capacity = c.capacity
      ∧ Seg c1.store none (e :: (pre ++ post)) none := by
  rw [moveToHead_eq]
  rcases List.eq_nil_or_concat pre with rfl | ⟨pre1, x, rfl⟩
  · simp only [List.nil_append] at *
    refine ⟨c, ?_, ?_, htail, rfl, rfl, hseg⟩
    · rw [hhead]; simp [firstAddr]
    · rw [hhead]; rfl
  · have hl : List.concat pre1 x ++ e :: post = pre1 ++ x :: e :: post := by simp
    rw [hl] at hseg hnd hhead htail
    have hne : some e.addr ≠ c.head := by
      rw [hhead, firstAddr_append]
      intro h
      have hm := firstAddr_mem (pre1 ++ [x]) e.addr (by
        rw [firstAddr_append]
        cases pre1 <;> simpa [firstAddr] using h.symm)
      have hnd2 := hnd
      simp only [List.map_append, List.map_cons, List.nodup_append, List.nodup_cons, List.mem_cons,
        not_or, List.disjoint_cons_right] at hnd2
      simp only [List.map_append, List.map_cons, List.map_nil, List.mem_append, List.mem_singleton] at hm
      rcases hm with hm | hm
      · exact hnd2.2.2.2.1 hm
      · exact hnd2.2.1.1.1 hm.symm
    obtain ⟨c1, h1, hh1, ht1, hc1, hcap1, hseg1, p0, q0, hst1⟩ := unlink_spec c pre1 post x e hseg hnd htail
    have hnd3 : ((pre1 ++ x :: post).map Slot.addr).Nodup ∧ e.addr ∉ (pre1 ++ x :: post).map Slot.addr := by
      simp only [List.map_append, List.map_cons, List.nodup_append, List.nodup_cons, List.mem_cons,
        not_or, List.disjoint_cons_right, List.mem_append] at hnd ⊢
      obtain ⟨hndpre, ⟨⟨hxe, hxpost⟩, hepost, hndpost⟩, hxpre, hepre, hdisj⟩ := hnd
      exact ⟨⟨hndpre, ⟨hxpost, hndpost⟩, hxpre, hdisj⟩, hepre, fun h => hxe h.symm, hepost⟩
    obtain ⟨c2, h2, hh2, ht2, hc2, hcap2, hseg2⟩ := relink_spec c1 (pre1 ++ x :: post) e p0 q0 hseg1
      (by rw [hh1, hhead, firstAddr_append, firstAddr_append]; rfl) hnd3.1 hnd3.2 hst1
    refine ⟨c2, ?_, hh2, ?_, hc2.trans hc1, hcap2.trans hcap1, ?_⟩
    · simp [hne, h1, h2]
    · rw [ht2, ht1, lastAddr_cons, List.concat_eq_append, List.append_assoc]
      simp only [lastAddr_append, lastAddr_cons, List.singleton_append]
    · simpa using hseg2

theorem addHead_spec (c : LRUCache) (m : List Slot) (e : Slot) (p0 q0 : Option Nat)
    (hseg : Seg c.store none m none) (hhead : c.head = firstAddr m none)
    (htail : c.tail = lastAddr none m)
    (hnd : (m.map Slot.addr).Nodup)
    (hn : e.addr ∉ m.map Slot.addr)
    (hst : c.store[e.addr]? = some { key := e.key, value := e.value, prev := p0, next := q0 }) :
    ∃ c1, addHead c (some e.addr) = some c1 ∧ c1.head = some e.addr
      ∧ c1.tail = lastAddr none (e :: m)
      ∧ c1.cache = c.cache ∧ c1.capacity = c.capacity ∧ Seg c1.store none (e :: m) none := by
  obtain ⟨c2, h2, hh2, ht2, hc2, hcap2, hseg2⟩ := relink_spec c m e p0 q0 hseg hhead hnd hn hst
  rw [addHead_eq_relink, h2]
  by_cases ht : c2.tail = none
  · refine ⟨{ c2 with tail := some e.addr }, by simp [ht], hh2, ?_, hc2, hcap2, hseg2⟩
    rw [ht2, htail] at ht
    cases m with
    | nil => rfl
    | cons f r =>
      rw [lastAddr_cons] at ht
      unfold lastAddr at ht
      cases hr : r.getLast? <;> simp [hr] at ht
  · refine ⟨c2, by simp [ht], hh2, ?_, hc2, hcap2, hseg2⟩
    rw [ht2, htail] at ht ⊢
    cases m with
    | nil => exact absurd rfl ht
    | cons f r => rw [lastAddr_cons, lastAddr_cons, lastAddr_cons]

theorem popTail_spec (c : LRUCache) (m : List Slot) (t : Slot)
    (hseg : Seg c.store none (m ++ [t]) none)
    (hnd : ((m ++ [t]).map Slot.addr).Nodup)
    (hhead : c.head = firstAddr (m ++ [t]) none)
    (htail : c.tail = lastAddr none (m ++ [t])) :
    ∃ c1, popTail c = some (c1, some t.addr) ∧ c1.head = firstAddr m none
      ∧ c1.tail = lastAddr none m
      ∧ c1.cache = c.cache ∧ c1.capacity = c.capacity
      ∧ Seg c1.store none m none
      ∧ ∃ p0 q0, c1.store[t.addr]? = some { key := t.key, value := t.value, prev := p0, next := q0 } := by
  have ht : c.tail = some t.addr := by
    rw [htail, lastAddr_append]; rfl
  rw [Seg_append] at hseg
  obtain ⟨hm, hst, -⟩ := hseg
  rcases List.eq_nil_or_concat m with rfl | ⟨m1, x, rfl⟩
  · simp only [lastAddr] at hst
    simp [popTail, ht, deref, hst, Seg, firstAddr, lastAddr]
  · rw [List.concat_eq_append] at hm hst hnd hhead ⊢
    have hlx : lastAddr none (m1 ++ [x]) = some x.addr := by rw [lastAddr_append]; rfl
    rw [hlx] at hst
    rw [Seg_append] at hm
    obtain ⟨hm1, hx, -⟩ := hm
    simp only [List.map_append, List.map_cons, List.map_nil, List.nodup_append, List.nodup_cons,
      List.disjoint_cons_right, List.disjoint_nil_right, List.not_mem_nil, not_false_eq_true,
      List.nodup_nil, and_true, true_and, List.mem_append, List.mem_singleton, not_or] at hnd
    obtain ⟨⟨hnd1, hx1⟩, ht1, htx⟩ := hnd
    have hxt : x.addr ≠ t.addr := fun h => htx h.symm
    simp [popTail, ht, deref, hst, assign, hx, List.getElem?_set_ne hxt, hlx]
    refine ⟨?_, ?_⟩
    · rw [hhead, firstAddr_append, firstAddr_append]
      cases m1 <;> rfl
    · rw [Seg_append]
      refine ⟨?_, ?_, trivial⟩
      · rw [Seg_set_notin _ _ _ _ _ _ hx1]; exact hm1
      · exact getElem?_set_same hx

theorem Seg_set_value (s : List listNode) (p q : Option Nat) (pre post : List Slot) (e : Slot)
    (v : Int) (hseg : Seg s p (pre ++ e :: post) q)
    (hnd : ((pre ++ e :: post).map Slot.addr).Nodup) :
    Seg (s.set e.addr ⟨e.key, v, lastAddr p pre, firstAddr post q⟩) p
      (pre ++ ⟨e.addr, e.key, v⟩ :: post) q := by
  rw [Seg_append] at hseg ⊢
  simp only [List.map_append, List.map_cons, List.nodup_append, List.nodup_cons,
    List.disjoint_cons_right] at hnd
  obtain ⟨hndpre, ⟨hepost, hndpost⟩, hepre, hdisj⟩ := hnd
  refine ⟨?_, ?_, ?_⟩
  · rw [Seg_set_notin _ _ _ _ _ _ hepre]; exact hseg.1
  · exact getElem?_set_same hseg.2.1
  · show Seg _ (some e.addr) post q
    rw [Seg_set_notin _ _ _ _ _ _ hepost]; exact hseg.2.2

theorem Seg_alloc (s : List listNode) (p q : Option Nat) (l : List Slot) (x : listNode)
    (hseg : Seg s p l q) : Seg (s ++ [x]) p l q := by
  induction l generalizing p with
  | nil => trivial
  | cons e r ih =>
    refine ⟨?_, ih _ hseg.2⟩
    rw [List.getElem?_append_left (List.getElem?_eq_some.mp hseg.1).1]
    exact hseg.1

/-! ## The map -/

theorem lookup_mem {β : Type} (l : List (Int × β)) (k : Int) (b : β) (h : l.lookup k = some b) :
    (k, b) ∈ l := by
  obtain ⟨l1, l2, rfl, -⟩ := List.lookup_eq_some_iff.mp h
  simp

theorem lookup_none_iff {β : Type} (l : List (Int × β)) (k : Int) :
    l.lookup k = none ↔ k ∉ l.map Prod.fst := by
  rw [List.lookup_eq_none_iff]
  simp only [List.mem_map, not_exists, not_and, bne_iff_ne, ne_eq]
  constructor
  · intro h p hp hk; exact h p hp hk.symm
  · intro h p hp hk; exact h p hp hk.symm

theorem lookup_of_mem {β : Type} (l : List (Int × β)) (hnd : (l.map Prod.fst).Nodup) (k : Int)
    (b : β) (h : (k, b) ∈ l) : l.lookup k = some b := by
  induction l with
  | nil => simp at h
  | cons p r ih =>
    obtain ⟨k1, b1⟩ := p
    simp only [List.map_cons, List.nodup_cons] at hnd
    rw [List.lookup_cons]
    simp only [List.mem_cons, Prod.mk.injEq] at h
    rcases h with ⟨rfl, rfl⟩ | h
    · simp
    · have hne : k ≠ k1 := by
        rintro rfl
        exact hnd.1 (List.mem_map.mpr ⟨(k, b), h, rfl⟩)
      have : (k == k1) = false := by simpa using hne
      rw [this]
      exact ih hnd.2 h

theorem filter_key_notin {β : Type} (l : List (Int × β)) (k : Int) (h : k ∉ l.map Prod.fst) :
    l.filter (fun e => e.1 ≠ k) = l := by
  rw [List.filter_eq_self]
  intro p hp
  simp only [ne_eq, decide_not, Bool.not_eq_eq_eq_not, Bool.not_true, decide_eq_false_iff_not]
  rintro rfl
  exact h (List.mem_map.mpr ⟨p, hp, rfl⟩)

theorem Inv.mapKeys_perm {c : LRUCache} {l : List Slot} (h : Inv c l) :
    (c.cache.map Prod.fst).Perm (l.map Slot.key) := by
  have := h.map.map Prod.fst
  simpa [List.map_map, Function.comp_def] using this

theorem Inv.lookup_none {c : LRUCache} {l : List Slot} (h : Inv c l) (k : Int) :
    c.cache.lookup k = none ↔ k ∉ l.map Slot.key := by
  rw [lookup_none_iff, h.mapKeys_perm.mem_iff]

theorem Inv.find {c : LRUCache} {l : List Slot} (h : Inv c l) (k : Int) (p : Option Nat)
    (hk : c.cache.lookup k = some p) :
    ∃ pre e post, l = pre ++ e :: post ∧ e.key = k ∧ p = some e.addr := by
  have hm := h.map.mem_iff.mp (lookup_mem _ _ _ hk)
  obtain ⟨e, he, heq⟩ := List.mem_map.mp hm
  obtain ⟨pre, post, rfl⟩ := List.append_of_mem he
  simp only [Prod.mk.injEq] at heq
  exact ⟨pre, e, post, rfl, heq.1, heq.2.symm⟩

theorem Inv.lookup_slot {c : LRUCache} {pre post : List Slot} {e : Slot}
    (h : Inv c (pre ++ e :: post)) : c.cache.lookup e.key = some (some e.addr) := by
  apply lookup_of_mem
  · exact (h.mapKeys_perm.nodup_iff).mpr h.keyNodup
  · apply h.map.mem_iff.mpr
    exact List.mem_map.mpr ⟨e, by simp, rfl⟩

theorem Inv.length_eq {c : LRUCache} {l : List Slot} (h : Inv c l) :
    c.cache.length = l.length := by
  simpa using h.map.length_eq

/-! ## The abstract list of entries -/

theorem slotEntries_lookup_none (l : List Slot) (k : Int) (h : k ∉ l.map Slot.key) :
    (slotEntries l).lookup k = none := by
  rw [lookup_none_iff]
  simpa [slotEntries, List.map_map, Function.comp_def] using h

theorem slotEntries_lookup (pre post : List Slot) (e : Slot)
    (hnd : ((pre ++ e :: post).map Slot.key).Nodup) :
    (slotEntries (pre ++ e :: post)).lookup e.key = some e.value := by
  apply lookup_of_mem
  · simpa [slotEntries, List.map_map, Function.comp_def] using hnd
  · simp [slotEntries]

theorem slotEntries_filter (pre post : List Slot) (e : Slot)
    (hnd : ((pre ++ e :: post).map Slot.key).Nodup) :
    (slotEntries (pre ++ e :: post)).filter (fun x => x.1 ≠ e.key) = slotEntries (pre ++ post) := by
  simp only [List.map_append, List.map_cons, List.nodup_append, List.nodup_cons,
    List.disjoint_cons_right] at hnd
  obtain ⟨-, ⟨hepost, -⟩, hepre, -⟩ := hnd
  have h1 := filter_key_notin (slotEntries pre) e.key
    (by simpa [slotEntries, List.map_map, Function.comp_def] using hepre)
  have h2 := filter_key_notin (slotEntries post) e.key
    (by simpa [slotEntries, List.map_map, Function.comp_def] using hepost)
  simp only [slotEntries, List.map_append, List.map_cons, List.filter_append, List.filter_cons] at h1 h2 ⊢
  rw [h1, h2]
  simp

/-! ## `Get` and `Put` keep the invariant and refine the abstract operations -/

theorem Inv.moveToHead {c : LRUCache} {pre post : List Slot} {e : Slot}
    (h : Inv c (pre ++ e :: post)) :
    ∃ c1, moveToHead c (some e.addr) = some c1 ∧ Inv c1 (e :: (pre ++ post))
      ∧ c1.cache = c.cache ∧ c1.capacity = c.capacity := by
  obtain ⟨c1, h1, hh, ht, hc, hcap, hseg⟩ :=
    moveToHead_spec c pre post e h.seg h.addrNodup h.head h.tail
  refine ⟨c1, h1, ?_, hc, hcap⟩
  have hp : (pre ++ e :: post).Perm (e :: (pre ++ post)) := List.perm_middle
  exact {
    addrNodup := ((hp.map Slot.addr).nodup_iff).mp h.addrNodup
    keyNodup := ((hp.map Slot.key).nodup_iff).mp h.keyNodup
    head := hh
    tail := ht
    seg := hseg
    map := by rw [hc]; exact h.map.trans (hp.map _) }

theorem Get_spec {c : LRUCache} {l : List Slot} (h : Inv c l) (k : Int) :
    ∃ c1 l1, Get c k = some (c1, (specGet (slotEntries l) k).2) ∧ Inv c1 l1
      ∧ slotEntries l1 = (specGet (slotEntries l) k).1
      ∧ c1.cache = c.cache ∧ c1.capacity = c.capacity := by
  cases hk : c.cache.lookup k with
  | none =>
    have hn := slotEntries_lookup_none l k ((h.lookup_none k).mp hk)
    refine ⟨c, l, ?_, h, ?_, rfl, rfl⟩
    · simp [Get, hk, specGet, hn]
    · simp [specGet, hn]
  | some p =>
    obtain ⟨pre, e, post, rfl, rfl, rfl⟩ := h.find k p hk
    obtain ⟨c1, h1, hinv, hc, hcap⟩ := h.moveToHead
    have hl := slotEntries_lookup pre post e h.keyNodup
    have hf := slotEntries_filter pre post e h.keyNodup
    refine ⟨c1, e :: (pre ++ post), ?_, hinv, ?_, hc, hcap⟩
    · simp [Get, hk, h1, deref, hinv.seg.1, specGet, hl]
    · simp only [specGet, hl, hf]
      rfl

theorem firstAddr_value (pre post : List Slot) (e : Slot) (v : Int) (q : Option Nat) :
    firstAddr (pre ++ ⟨e.addr, e.key, v⟩ :: post) q = firstAddr (pre ++ e :: post) q := by
  cases pre <;> rfl

theorem lastAddr_value (pre post : List Slot) (e : Slot) (v : Int) (p : Option Nat) :
    lastAddr p (pre ++ ⟨e.addr, e.key, v⟩ :: post) = lastAddr p (pre ++ e :: post) := by
  rw [lastAddr_append, lastAddr_append, lastAddr_cons, lastAddr_cons]

theorem Inv.setValue {c : LRUCache} {pre post : List Slot} {e : Slot}
    (h : Inv c (pre ++ e :: post)) (v : Int) :
    ∃ c1, assign c (some e.addr) (fun x => { x with value := v }) = some c1
      ∧ Inv c1 (pre ++ ⟨e.addr, e.key, v⟩ :: post)
      ∧ c1.cache = c.cache ∧ c1.capacity = c.capacity := by
  have hst := ((Seg_append _ _ _ _ _).mp h.seg).2.1
  refine ⟨{ c with store := c.store.set e.addr ⟨e.key, v, lastAddr none pre, firstAddr post none⟩ },
    by simp only [assign, hst], ?_, rfl, rfl⟩
  exact {
    addrNodup := by simpa using h.addrNodup
    keyNodup := by simpa using h.keyNodup
    head := by rw [firstAddr_value]; exact h.head
    tail := by rw [lastAddr_value]; exact h.tail
    seg := Seg_set_value _ _ _ _ _ _ v h.seg h.addrNodup
    map := by simpa using h.map }

theorem Put_spec_present {c : LRUCache} {l : List Slot} (h : Inv c l) (k v : Int) (p : Option Nat)
    (hk : c.cache.lookup k = some p) :
    ∃ c1 l1, Put c k v = some c1 ∧ Inv c1 l1
      ∧ slotEntries l1 = specPut c.capacity (slotEntries l) k v
      ∧ c1.cache = c.cache ∧ c1.capacity = c.capacity := by
  obtain ⟨pre, e, post, rfl, rfl, rfl⟩ := h.find k p hk
  obtain ⟨c1, h1, hinv1, hc1, hcap1⟩ := h.setValue v
  obtain ⟨c2, h2, hinv2, hc2, hcap2⟩ := hinv1.moveToHead
  have hl := slotEntries_lookup pre post e h.keyNodup
  have hf := slotEntries_filter pre post e h.keyNodup
  refine ⟨c2, _, ?_, hinv2, ?_, hc2.trans hc1, hcap2.trans hcap1⟩
  · simp [Put, hk, h1, h2]
  · simp only [specPut, hl, hf]
    rfl

theorem Put_spec_absent {c : LRUCache} {l : List Slot} (h : Inv c l) (k v : Int)
    (hk : c.cache.lookup k = none) :
    ∃ c1 l1, Put c k v = some c1 ∧ Inv c1 l1
      ∧ slotEntries l1 = specPut c.capacity (slotEntries l) k v
      ∧ c1.capacity = c.capacity := by
  have hkn := (h.lookup_none k).mp hk
  have hn := slotEntries_lookup_none l k hkn
  have hfil := filter_key_notin c.cache k ((lookup_none_iff _ _).mp hk)
  have hfresh : c.store.length ∉ l.map Slot.addr := fun hm =>
    absurd (Seg_valid _ _ _ _ h.seg _ hm) (lt_irrefl _)
  obtain ⟨c3, h3, hh3, ht3, hc3, hcap3, hseg3⟩ := addHead_spec
    { c with store := c.store ++ [⟨k, v, none, none⟩], cache := (k, some c.store.length) :: c.cache }
    l ⟨c.store.length, k, v⟩ none none (Seg_alloc _ _ _ _ _ h.seg) h.head h.tail h.addrNodup hfresh
    (by simp)
  have h3 : addHead ⟨c.capacity, (k, some c.store.length) :: c.cache, c.head, c.tail,
      c.store ++ [⟨k, v, none, none⟩]⟩ (some c.store.length) = some c3 := h3
  have hcap3 : c3.capacity = c.capacity := hcap3
  have hc3 : c3.cache = (k, some c.store.length) :: c.cache := hc3
  have hinv3 : Inv c3 (⟨c.store.length, k, v⟩ :: l) := {
    addrNodup := List.nodup_cons.mpr ⟨hfresh, h.addrNodup⟩
    keyNodup := List.nodup_cons.mpr ⟨hkn, h.keyNodup⟩
    head := hh3
    tail := ht3
    seg := hseg3
    map := by rw [hc3]; exact List.Perm.cons _ h.map }
  have hlen : c3.cache.length = l.length + 1 := by rw [hinv3.length_eq]; rfl
  have hsl : (slotEntries l).length = l.length := by simp [slotEntries]
  by_cases hov : ((l.length : Int) + 1) > c.capacity
  · rcases List.eq_nil_or_concat (⟨c.store.length, k, v⟩ :: l) with hnil | ⟨m, t, hmt⟩
    · simp at hnil
    · rw [List.concat_eq_append] at hmt
      rw [hmt] at hinv3
      obtain ⟨c4, h4, hh4, ht4, hc4, hcap4, hseg4, p0, q0, hst4⟩ :=
        popTail_spec c3 m t hinv3.seg hinv3.addrNodup hinv3.head hinv3.tail
      have hand := hinv3.addrNodup
      have hknd := hinv3.keyNodup
      simp only [List.map_append, List.map_cons, List.map_nil, List.nodup_append] at hand hknd
      have htm : t.key ∉ m.map Slot.key := fun hm => hknd.2.2 hm (List.mem_singleton.mpr rfl)
      refine ⟨{ c4 with cache := c4.cache.filter (fun x => x.1 ≠ t.key) }, m, ?_, ?_, ?_, ?_⟩
      · simp only [Put, hk, hfil, h3, Option.bind_eq_bind, Option.some_bind, hlen, hcap3]
        rw [if_pos (by push_cast; exact hov)]
        simp only [h4, Option.some_bind, deref, hst4]
      · exact {
          addrNodup := hand.1
          keyNodup := hknd.1
          head := hh4
          tail := ht4
          seg := hseg4
          map := by
            show (c4.cache.filter (fun x => x.1 ≠ t.key)).Perm _
            rw [hc4]
            have hp := hinv3.map.filter (fun x => x.1 ≠ t.key)
            refine hp.trans ?_
            rw [List.map_append, List.filter_append]
            have hm1 := filter_key_notin (m.map (fun x => (x.key, some x.addr))) t.key
              (by simpa [List.map_map, Function.comp_def] using htm)
            rw [hm1]
            simp }
      · simp only [specPut, hn, hsl, hov, if_true]
        have : (k, v) :: slotEntries l = slotEntries (m ++ [t]) := by rw [← hmt]; rfl
        rw [this]
        simp [slotEntries]
      · exact hcap4.trans hcap3
  · refine ⟨c3, _, ?_, hinv3, ?_, hcap3⟩
    · simp only [Put, hk, hfil, h3, Option.bind_eq_bind, Option.some_bind, hlen, hcap3]
      rw [if_neg (by push_cast; exact hov)]
    · simp only [specPut, hn, hsl, hov, if_false]
      rfl

theorem Put_spec {c : LRUCache} {l : List Slot} (h : Inv c l) (k v : Int) :
    ∃ c1 l1, Put c k v = some c1 ∧ Inv c1 l1
      ∧ slotEntries l1 = specPut c.capacity (slotEntries l) k v
      ∧ c1.capacity = c.capacity := by
  cases hk : c.cache.lookup k with
  | none => exact Put_spec_absent h k v hk
  | some p =>
    obtain ⟨c1, l1, h1, h2, h3, -, h5⟩ := Put_spec_present h k v p hk
    exact ⟨c1, l1, h1, h2, h3, h5⟩

/-! ## Reachable states -/

theorem Inv_new (capacity : Int) : Inv (NewLRUCache capacity) [] :=
  { addrNodup := List.nodup_nil
    keyNodup := List.nodup_nil
    head := rfl
    tail := rfl
    seg := trivial
    map := List.Perm.refl _ }

theorem step_spec {c : LRUCache} {l : List Slot} (h : Inv c l) (op : Call) :
    ∃ c1 l1, step c op = some c1 ∧ Inv c1 l1
      ∧ slotEntries l1 = specStep c.capacity (slotEntries l) op
      ∧ c1.capacity = c.capacity := by
  cases op with
  | put k v => exact Put_spec h k v
  | get k =>
    obtain ⟨c1, l1, h1, h2, h3, -, h5⟩ := Get_spec h k
    exact ⟨c1, l1, by simp [step, h1], h2, h3, h5⟩

theorem run_spec {c : LRUCache} {l : List Slot} (h : Inv c l) (ops : List Call) :
    ∃ c1 l1, run c ops = some c1 ∧ Inv c1 l1
      ∧ slotEntries l1 = specRun c.capacity (slotEntries l) ops
      ∧ c1.capacity = c.capacity := by
  induction ops generalizing c l with
  | nil => exact ⟨c, l, rfl, h, rfl, rfl⟩
  | cons op ops ih =>
    obtain ⟨c1, l1, h1, hinv1, he1, hcap1⟩ := step_spec h op
    obtain ⟨c2, l2, h2, hinv2, he2, hcap2⟩ := ih hinv1
    refine ⟨c2, l2, by simp [run, h1, h2], hinv2, ?_, hcap2.trans hcap1⟩
    rw [he2, he1, hcap1]
    rfl

theorem Reachable.inv {capacity : Int} {c : LRUCache} (h : Reachable capacity c) :
    ∃ l, Inv c l ∧ c.capacity = capacity ∧ ∃ calls, slotEntries l = specRun capacity [] calls := by
  obtain ⟨calls, hc⟩ := h
  obtain ⟨c1, l1, h1, hinv, he, hcap⟩ := run_spec (Inv_new capacity) calls
  rw [hc] at h1
  cases h1
  exact ⟨l1, hinv, hcap, calls, he⟩

theorem run_append (c : LRUCache) (ops1 ops2 : List Call) :
    run c (ops1 ++ ops2) = (run c ops1).bind (fun c1 => run c1 ops2) := by
  induction ops1 generalizing c with
  | nil => rfl
  | cons op ops ih =>
    simp only [List.cons_append, run]
    cases step c op with
    | none => rfl
    | some c1 => simpa using ih c1

/-! ## The abstract operations -/

theorem specGet_length (es : List (Int × Int)) (k : Int) (hnd : (es.map Prod.fst).Nodup) :
    (specGet es k).1.length = es.length := by
  unfold specGet
  cases hk : es.lookup k with
  | none => rfl
  | some v =>
    obtain ⟨l1, l2, rfl, -⟩ := List.lookup_eq_some_iff.mp hk
    simp only [List.map_append, List.map_cons, List.nodup_append, List.nodup_cons,
      List.disjoint_cons_right] at hnd
    obtain ⟨-, ⟨h2, -⟩, h1, -⟩ := hnd
    simp only [List.filter_append, List.filter_cons, filter_key_notin l1 k h1,
      filter_key_notin l2 k h2, List.length_cons, List.length_append]
    simp
    omega

theorem specPut_length_le (capacity : Int) (es : List (Int × Int)) (k v : Int)
    (hnd : (es.map Prod.fst).Nodup) (hle : (es.length : Int) ≤ capacity) :
    ((specPut capacity es k v).length : Int) ≤ capacity := by
  unfold specPut
  cases hk : es.lookup k with
  | none =>
    simp only
    split
    · simp only [List.length_dropLast, List.length_cons, Nat.add_sub_cancel]
      exact hle
    · rename_i h
      simp only [List.length_cons]
      push_cast
      omega
  | some w =>
    have := specGet_length es k hnd
    simp only [specGet, hk, List.length_cons] at this
    simp only [List.length_cons]
    rw [this]
    exact hle

theorem slotEntries_keyNodup (l : List Slot) (h : (l.map Slot.key).Nodup) :
    ((slotEntries l).map Prod.fst).Nodup := by
  simpa [slotEntries, List.map_map, Function.comp_def] using h

theorem specGet_keyNodup (es : List (Int × Int)) (k : Int) (hnd : (es.map Prod.fst).Nodup) :
    ((specGet es k).1.map Prod.fst).Nodup := by
  unfold specGet
  cases hk : es.lookup k with
  | none => exact hnd
  | some v =>
    simp only [List.map_cons, List.nodup_cons]
    refine ⟨?_, (List.filter_sublist _).map _ |>.nodup hnd⟩
    simp [List.mem_map, List.mem_filter]

theorem step_bound {c : LRUCache} {l : List Slot} (h : Inv c l) (op : Call)
    (hle : (l.length : Int) ≤ c.capacity) :
    ∃ c1 l1, step c op = some c1 ∧ Inv c1 l1
      ∧ slotEntries l1 = specStep c.capacity (slotEntries l) op
      ∧ c1.capacity = c.capacity ∧ (l1.length : Int) ≤ c1.capacity := by
  obtain ⟨c1, l1, h1, hinv1, he1, hcap1⟩ := step_spec h op
  refine ⟨c1, l1, h1, hinv1, he1, hcap1, ?_⟩
  have hlen : l1.length = (specStep c.capacity (slotEntries l) op).length := by
    rw [← he1]; simp [slotEntries]
  have hnd := slotEntries_keyNodup l h.keyNodup
  have hsl : (slotEntries l).length = l.length := by simp [slotEntries]
  rw [hlen, hcap1]
  cases op with
  | put k v =>
    exact specPut_length_le _ _ _ _ hnd (by rw [hsl]; exact hle)
  | get k =>
    simp only [specStep]
    rw [specGet_length _ _ hnd, hsl]
    exact hle

theorem run_bound {c : LRUCache} {l : List Slot} (h : Inv c l) (ops : List Call)
    (hle : (l.length : Int) ≤ c.capacity) :
    ∃ c1 l1, run c ops = some c1 ∧ Inv c1 l1
      ∧ c1.capacity = c.capacity ∧ (l1.length : Int) ≤ c1.capacity := by
  induction ops generalizing c l with
  | nil => exact ⟨c, l, rfl, h, rfl, hle⟩
  | cons op ops ih =>
    obtain ⟨c1, l1, h1, hinv1, -, hcap1, hle1⟩ := step_bound h op hle
    obtain ⟨c2, l2, h2, hinv2, hcap2, hle2⟩ := ih hinv1 hle1
    exact ⟨c2, l2, by simp [run, h1, h2], hinv2, hcap2.trans hcap1, hle2⟩

theorem Reachable.bound {capacity : Int} {c : LRUCache} (h : Reachable capacity c)
    (hcap : 0 ≤ capacity) :
    ∃ l, Inv c l ∧ c.capacity = capacity ∧ (l.length : Int) ≤ capacity := by
  obtain ⟨calls, hc⟩ := h
  obtain ⟨c1, l1, h1, hinv, hcap1, hle⟩ := run_bound (Inv_new capacity) calls (by simpa using hcap)
  rw [hc] at h1
  cases h1
  have hcap2 : c.capacity = capacity := hcap1
  exact ⟨l1, hinv, hcap2, by rw [← hcap2]; exact hle⟩

theorem specPut_head (capacity : Int) (hcap : 1 ≤ capacity) (es : List (Int × Int)) (k v : Int) :
    ∃ rest, specPut capacity es k v = (k, v) :: rest := by
  unfold specPut
  cases hk : es.lookup k with
  | some w => exact ⟨_, rfl⟩
  | none =>
    simp only
    split
    · rename_i hov
      cases es with
      | nil => simp at hov; omega
      | cons e r => exact ⟨(e :: r).dropLast, by simp [List.dropLast]⟩
    · exact ⟨_, rfl⟩

theorem Get_hit {c : LRUCache} {l : List Slot} (h : Inv c l) (k : Int) (n : Option Nat)
    (hk : c.cache.lookup k = some n) :
    ∃ c1 pre e post, l = pre ++ e :: post ∧ e.key = k ∧ n = some e.addr
      ∧ Get c k = some (c1, e.value) ∧ Inv c1 (e :: (pre ++ post))
      ∧ c1.cache = c.cache ∧ c1.capacity = c.capacity := by
  obtain ⟨pre, e, post, rfl, rfl, rfl⟩ := h.find k n hk
  obtain ⟨c1, h1, hinv, hc, hcap⟩ := h.moveToHead
  refine ⟨c1, pre, e, post, rfl, rfl, rfl, ?_, hinv, hc, hcap⟩
  simp [Get, hk, h1, deref, hinv.seg.1]

/-- C1: for every capacity >= 1 and every sequence of `Put` and `Get` calls
applied to `NewLRUCache(capacity)`, after every call (after every initial part
of the sequence) the calls have succeeded and the number of entries of the map,
which is also the number of nodes reachable from `head`, is at most `capacity`. -/
theorem size_le_capacity (capacity : Int) (hcap : 1 ≤ capacity) (calls : List Call) (n : Nat) :
    ∃ c, run (NewLRUCache capacity) (calls.take n) = some c
      ∧ (c.cache.length : Int) ≤ capacity
      ∧ (chain c).length = c.cache.length := by
  obtain ⟨c, l, h1, hinv, hc, hle⟩ :=
    run_bound (Inv_new capacity) (calls.take n) (show ((0 : Nat) : Int) ≤ capacity by omega)
  refine ⟨c, h1, ?_, ?_⟩
  · rw [hinv.length_eq, ← show c.capacity = capacity from hc]
    exact hle
  · rw [hinv.chain_eq, hinv.length_eq, List.length_map]

theorem size_le_capacity_witness :
    ∃ c, run (NewLRUCache 2) ([Call.put 1 1, Call.put 2 2, Call.get 1, Call.put 3 3].take 4) = some c
      ∧ (c.cache.length : Int) ≤ 2
      ∧ (chain c).length = c.cache.length :=
  size_le_capacity 2 (by decide) [Call.put 1 1, Call.put 2 2, Call.get 1, Call.put 3 3] 4

/-- C4: for every capacity >= 1 and every reachable state, `Put(k, v)`
succeeds and the `Get(k)` that follows it returns `v`. -/
theorem put_then_get (capacity : Int) (hcap : 1 ≤ capacity) (c : LRUCache)
    (hr : Reachable capacity c) (k v : Int) :
    ∃ c1 c2, Put c k v = some c1 ∧ Get c1 k = some (c2, v) := by
  obtain ⟨l, hinv, hc, -⟩ := hr.inv
  obtain ⟨c1, l1, h1, hinv1, he1, -⟩ := Put_spec hinv k v
  obtain ⟨rest, hrest⟩ := specPut_head c.capacity (by rw [hc]; exact hcap) (slotEntries l) k v
  obtain ⟨c2, l2, h2, -⟩ := Get_spec hinv1 k
  refine ⟨c1, c2, h1, ?_⟩
  rw [h2, he1, hrest]
  simp [specGet]

theorem put_then_get_witness :
    Reachable 2 (NewLRUCache 2) ∧
      ∃ c1 c2, Put (NewLRUCache 2) 1 7 = some c1 ∧ Get c1 1 = some (c2, 7) :=
  ⟨⟨[], rfl⟩, put_then_get 2 (by decide) (NewLRUCache 2) ⟨[], rfl⟩ 1 7⟩

theorem Inv.keys_eq {c : LRUCache} {l : List Slot} (h : Inv c l) :
    keys c = l.map Slot.key := by
  unfold keys
  rw [h.entries_eq]
  simp [slotEntries, List.map_map, Function.comp_def]

/-- C5: for every capacity >= 1 and every reachable state, `Put(k, v1)`, then
`Put(k, v2)`, then `Get(k)` all succeed and the `Get` returns `v2`; the second
`Put` leaves the map (hence the set of keys present and their number), the
number of nodes of the list and the head-to-tail order of the keys as they were
after the first `Put`. -/
theorem put_put_get (capacity : Int) (hcap : 1 ≤ capacity) (c : LRUCache)
    (hr : Reachable capacity c) (k v1 v2 : Int) :
    ∃ c1 c2 c3, Put c k v1 = some c1 ∧ Put c1 k v2 = some c2 ∧ Get c2 k = some (c3, v2)
      ∧ c2.cache = c1.cache ∧ c2.cache.length = c1.cache.length
      ∧ (chain c2).length = (chain c1).length ∧ keys c2 = keys c1 := by
  obtain ⟨l, hinv, hc, -⟩ := hr.inv
  obtain ⟨c1, l1, h1, hinv1, he1, hcap1⟩ := Put_spec hinv k v1
  obtain ⟨rest, hrest⟩ := specPut_head c.capacity (by rw [hc]; exact hcap) (slotEntries l) k v1
  rw [hrest] at he1
  have hk1 : c1.cache.lookup k ≠ none := by
    rw [Ne, hinv1.lookup_none]
    have : (slotEntries l1).map Prod.fst = l1.map Slot.key := by
      simp [slotEntries, List.map_map, Function.comp_def]
    rw [← this, he1]
    simp
  obtain ⟨p, hp⟩ := Option.ne_none_iff_exists'.mp hk1
  obtain ⟨c2, l2, h2, hinv2, he2, hc2, hcap2⟩ := Put_spec_present hinv1 k v2 p hp
  have hnd := slotEntries_keyNodup l1 hinv1.keyNodup
  rw [he1] at hnd he2
  simp only [List.map_cons, List.nodup_cons] at hnd
  have he2b : slotEntries l2 = (k, v2) :: rest := by
    rw [he2]
    simp [specPut]
    intro a b hab hak
    exact hnd.1 (List.mem_map.mpr ⟨(a, b), hab, hak⟩)
  obtain ⟨c3, l3, h3, -⟩ := Get_spec hinv2 k
  refine ⟨c1, c2, c3, h1, h2, ?_, hc2, by rw [hc2], ?_, ?_⟩
  · rw [h3, he2b]
    simp [specGet]
  · rw [hinv2.chain_eq, hinv1.chain_eq, List.length_map, List.length_map,
      ← hinv2.length_eq, ← hinv1.length_eq, hc2]
  · unfold keys
    rw [hinv2.entries_eq, hinv1.entries_eq, he2b, he1]
    rfl

theorem put_put_get_witness :
    Reachable 1 (NewLRUCache 1) ∧
      ∃ c1 c2 c3, Put (NewLRUCache 1) 2 1 = some c1 ∧ Put c1 2 20 = some c2
        ∧ Get c2 2 = some (c3, 20)
        ∧ c2.cache = c1.cache ∧ c2.cache.length = c1.cache.length
        ∧ (chain c2).length = (chain c1).length ∧ keys c2 = keys c1 :=
  ⟨⟨[], rfl⟩, put_put_get 1 (by decide) (NewLRUCache 1) ⟨[], rfl⟩ 2 1 20⟩

/-- C6: in every state, `Get(k)` of a key that is not in the map returns -1 and
returns the state it was given, unchanged in every component (map, head, tail,
every node and link); hence any call that follows, such as a `Put` that
overflows, behaves as it would have without the `Get`. -/
theorem get_absent (c : LRUCache) (k : Int) (hk : c.cache.lookup k = none) :
    Get c k = some (c, -1)
      ∧ ∀ k2 v2 : Int, (Get c k).bind (fun r => Put r.1 k2 v2) = Put c k2 v2 := by
  have h : Get c k = some (c, -1) := by simp only [Get, hk]
  exact ⟨h, fun k2 v2 => by rw [h]; rfl⟩

theorem get_absent_witness :
    (NewLRUCache 2).cache.lookup 1 = none ∧
      (Get (NewLRUCache 2) 1 = some (NewLRUCache 2, -1)
        ∧ ∀ k2 v2 : Int, (Get (NewLRUCache 2) 1).bind (fun r => Put r.1 k2 v2)
            = Put (NewLRUCache 2) k2 v2) :=
  ⟨rfl, get_absent (NewLRUCache 2) 1 rfl⟩

/-- C7: in every reachable state, `Get(k)` of a key present in the map returns
the value stored in the node the map gives for `k`; afterwards that node is the
head, the list is the old list with the entry of `k` moved to the front and the
other entries in their old relative order, and the map, the stored (key, value)
pairs and the capacity are unchanged. -/
theorem get_present (capacity : Int) (c : LRUCache) (hr : Reachable capacity c) (k : Int)
    (n : Option Nat) (hk : c.cache.lookup k = some n) :
    ∃ c1 x, deref c n = some x ∧ x.key = k ∧ Get c k = some (c1, x.value)
      ∧ (entries c).lookup k = some x.value
      ∧ c1.head = n
      ∧ entries c1 = (k, x.value) :: (entries c).filter (fun e => e.1 ≠ k)
      ∧ (entries c1).Perm (entries c)
      ∧ c1.cache = c.cache ∧ c1.capacity = c.capacity := by
  obtain ⟨l, hinv, -⟩ := hr.inv
  obtain ⟨c1, pre, e, post, rfl, rfl, rfl, h1, hinv1, hc, hcap⟩ := Get_hit hinv k n hk
  have hst := ((Seg_append _ _ _ _ _).mp hinv.seg).2.1
  have hl := slotEntries_lookup pre post e hinv.keyNodup
  have hf := slotEntries_filter pre post e hinv.keyNodup
  refine ⟨c1, _, hst, rfl, h1, ?_, hinv1.head, ?_, ?_, hc, hcap⟩
  · rw [hinv.entries_eq]; exact hl
  · rw [hinv1.entries_eq, hinv.entries_eq, hf]; rfl
  · rw [hinv1.entries_eq, hinv.entries_eq]
    exact (List.perm_middle.symm).map _

theorem get_present_witness :
    Reachable 2 ⟨2, [(2, some 1), (1, some 0)], some 1, some 0,
        [⟨1, 10, some 1, none⟩, ⟨2, 20, none, some 0⟩]⟩
      ∧ List.lookup 1 [((2 : Int), some 1), (1, some 0)] = some (some 0)
      ∧ ∃ c1 x, deref ⟨2, [(2, some 1), (1, some 0)], some 1, some 0,
          [⟨1, 10, some 1, none⟩, ⟨2, 20, none, some 0⟩]⟩ (some 0) = some x ∧ x.key = 1
        ∧ Get ⟨2, [(2, some 1), (1, some 0)], some 1, some 0,
          [⟨1, 10, some 1, none⟩, ⟨2, 20, none, some 0⟩]⟩ 1 = some (c1, x.value)
        ∧ (entries ⟨2, [(2, some 1), (1, some 0)], some 1, some 0,
          [⟨1, 10, some 1, none⟩, ⟨2, 20, none, some 0⟩]⟩).lookup 1 = some x.value
        ∧ c1.head = some 0
        ∧ entries c1 = (1, x.value) :: (entries ⟨2, [(2, some 1), (1, some 0)], some 1, some 0,
          [⟨1, 10, some 1, none⟩, ⟨2, 20, none, some 0⟩]⟩).filter (fun e => e.1 ≠ 1)
        ∧ (entries c1).Perm (entries ⟨2, [(2, some 1), (1, some 0)], some 1, some 0,
          [⟨1, 10, some 1, none⟩, ⟨2, 20, none, some 0⟩]⟩)
        ∧ c1.cache = [(2, some 1), (1, some 0)] ∧ c1.capacity = 2 :=
  ⟨⟨[Call.put 1 10, Call.put 2 20], by decide⟩, by decide,
    get_present 2 _ ⟨[Call.put 1 10, Call.put 2 20], by decide⟩ 1 (some 0) (by decide)⟩

theorem perm_lookup {es es1 : List (Int × Int)} (hp : es1.Perm es)
    (hnd : (es1.map Prod.fst).Nodup) (j : Int) : es1.lookup j = es.lookup j := by
  have hnd2 : (es.map Prod.fst).Nodup := ((hp.map Prod.fst).nodup_iff).mp hnd
  cases h : es.lookup j with
  | none =>
    rw [lookup_none_iff] at h ⊢
    exact fun hm => h (((hp.map Prod.fst).mem_iff).mp hm)
  | some w =>
    exact lookup_of_mem _ hnd _ _ (hp.mem_iff.mpr (lookup_mem _ _ _ h))

theorem run_replicate_get (c1 : LRUCache) (k : Int) (v : Int) (h : Get c1 k = some (c1, v))
    (m : Nat) : run c1 (List.replicate m (Call.get k)) = some c1 := by
  induction m with
  | zero => rfl
  | succ m ih => simp [List.replicate_succ, run, step, h, ih]

/-- C10: in every reachable state, for a key `k` present in the map, a second
`Get(k)` right after the first returns the same value and leaves exactly the
state the first one left; any number m >= 1 of such calls leads to that same
state, in which the map and the stored (key, value) pairs are those before the
first call and the node of `k` is the head. -/
theorem get_get (capacity : Int) (c : LRUCache) (hr : Reachable capacity c) (k : Int)
    (n : Option Nat) (hk : c.cache.lookup k = some n) :
    ∃ c1 v, Get c k = some (c1, v) ∧ Get c1 k = some (c1, v)
      ∧ (∀ m : Nat, 1 ≤ m → run c (List.replicate m (Call.get k)) = some c1)
      ∧ c1.cache = c.cache
      ∧ (entries c1).Perm (entries c)
      ∧ (∀ j : Int, (entries c1).lookup j = (entries c).lookup j)
      ∧ c1.head = n ∧ (keys c1).head? = some k := by
  obtain ⟨l, hinv, -⟩ := hr.inv
  obtain ⟨c1, pre, e, post, rfl, rfl, rfl, h1, hinv1, hc, hcap⟩ := Get_hit hinv _ _ hk
  have h2 : Get c1 e.key = some (c1, e.value) := by
    have hk1 : c1.cache.lookup e.key = some (some e.addr) := by rw [hc]; exact hk
    have hm : moveToHead c1 (some e.addr) = some c1 := by
      simp [LRU.moveToHead, hinv1.head, firstAddr]
    simp [Get, hk1, hm, deref, hinv1.seg.1]
  have hp : (entries c1).Perm (entries c) := by
    rw [hinv1.entries_eq, hinv.entries_eq]
    exact (List.perm_middle.symm).map _
  refine ⟨c1, e.value, h1, h2, ?_, hc, hp, ?_, hinv1.head, ?_⟩
  · intro m hm
    obtain ⟨m1, rfl⟩ : ∃ m1, m = m1 + 1 := ⟨m - 1, by omega⟩
    simp only [List.replicate_succ, run, step, h1, Option.map_some', Option.some_bind]
    exact run_replicate_get c1 e.key e.value h2 m1
  · intro j
    apply perm_lookup hp
    rw [hinv1.entries_eq]
    exact slotEntries_keyNodup _ hinv1.keyNodup
  · rw [hinv1.keys_eq]; rfl

theorem get_get_witness :
    Reachable 2 ⟨2, [(2, some 1), (1, some 0)], some 1, some 0,
        [⟨1, 10, some 1, none⟩, ⟨2, 20, none, some 0⟩]⟩
      ∧ List.lookup 1 [((2 : Int), some 1), (1, some 0)] = some (some 0)
      ∧ ∃ c1 v, Get ⟨2, [(2, some 1), (1, some 0)], some 1, some 0,
            [⟨1, 10, some 1, none⟩, ⟨2, 20, none, some 0⟩]⟩ 1 = some (c1, v)
        ∧ Get c1 1 = some (c1, v)
        ∧ (∀ m : Nat, 1 ≤ m → run ⟨2, [(2, some 1), (1, some 0)], some 1, some 0,
            [⟨1, 10, some 1, none⟩, ⟨2, 20, none, some 0⟩]⟩ (List.replicate m (Call.get 1))
              = some c1)
        ∧ c1.cache = [(2, some 1), (1, some 0)]
        ∧ (entries c1).Perm (entries ⟨2, [(2, some 1), (1, some 0)], some 1, some 0,
            [⟨1, 10, some 1, none⟩, ⟨2, 20, none, some 0⟩]⟩)
        ∧ (∀ j : Int, (entries c1).lookup j = (entries ⟨2, [(2, some 1), (1, some 0)], some 1,
            some 0, [⟨1, 10, some 1, none⟩, ⟨2, 20, none, some 0⟩]⟩).lookup j)
        ∧ c1.head = some 0 ∧ (keys c1).head? = some 1 :=
  ⟨⟨[Call.put 1 10, Call.put 2 20], by decide⟩, by decide,
    get_get 2 _ ⟨[Call.put 1 10, Call.put 2 20], by decide⟩ 1 (some 0) (by decide)⟩

theorem evicted_length {c c1 : LRUCache} {l l1 : List Slot} (h : Inv c l) (h1 : Inv c1 l1) :
    (evicted c c1).length = ((l.map Slot.key).filter (fun j => j ∉ l1.map Slot.key)).length := by
  unfold evicted mapKeys
  have hf : (fun j : Int => (c1.cache.lookup j).isNone) = (fun j => decide (j ∉ l1.map Slot.key)) := by
    funext j
    have := h1.lookup_none j
    cases hj : c1.cache.lookup j with
    | none => simp [this.mp hj]
    | some p =>
      have hne : ¬ (j ∉ l1.map Slot.key) := fun hn => by
        rw [this.mpr hn] at hj; cases hj
      simp only [Option.isNone_some]
      exact (decide_eq_false hne).symm
  rw [hf]
  exact (h.mapKeys_perm.filter _).length_eq

theorem evicted_subset (c c1 : LRUCache) (j : Int) (h : j ∈ evicted c c1) :
    c.cache.lookup j ≠ none := by
  unfold evicted mapKeys at h
  rw [Ne, lookup_none_iff]
  exact fun hn => hn (List.mem_filter.mp h).1

/-- C9: for every capacity >= 1, every reachable state and every `Put(k, v)`:
the call succeeds; at most one key of the map is absent from it afterwards;
exactly one is if and only if `k` was absent and the map held `capacity`
entries; `k` is not such a key; and when `k` was absent and the map held fewer
than `capacity` entries, the list afterwards is the old list with the new entry
in front and the map has one entry more. -/
theorem put_evicts_at_most_one (capacity : Int) (hcap : 1 ≤ capacity) (c : LRUCache)
    (hr : Reachable capacity c) (k v : Int) :
    ∃ c1, Put c k v = some c1
      ∧ (evicted c c1).length ≤ 1
      ∧ ((evicted c c1).length = 1 ↔
          (c.cache.lookup k = none ∧ (c.cache.length : Int) = capacity))
      ∧ k ∉ evicted c c1
      ∧ (c.cache.lookup k = none → (c.cache.length : Int) < capacity →
          entries c1 = (k, v) :: entries c ∧ c1.cache.length = c.cache.length + 1) := by
  obtain ⟨l, hinv, hc, hle⟩ := hr.bound (by omega)
  have hsl : (slotEntries l).length = l.length := by simp [slotEntries]
  have hkeys : ∀ l : List Slot, (slotEntries l).map Prod.fst = l.map Slot.key := fun l => by
    simp [slotEntries, List.map_map, Function.comp_def]
  cases hk : c.cache.lookup k with
  | some p =>
    obtain ⟨c1, l1, h1, hinv1, he1, hc1, hcap1⟩ := Put_spec_present hinv k v p hk
    have hev : evicted c c1 = [] := by
      rw [List.eq_nil_iff_forall_not_mem]
      intro j hj
      have hj2 := evicted_subset _ _ _ hj
      unfold evicted at hj
      have := (List.mem_filter.mp hj).2
      rw [hc1] at this
      cases hl : c.cache.lookup j with
      | none => exact hj2 hl
      | some q => simp [hl] at this
    refine ⟨c1, h1, by simp [hev], ?_, by simp [hev], by intro h; cases h⟩
    simp [hev]
  | none =>
    obtain ⟨c1, l1, h1, hinv1, he1, hcap1⟩ := Put_spec_absent hinv k v hk
    have hkn := (hinv.lookup_none k).mp hk
    have hn := slotEntries_lookup_none l k hkn
    have hlen := evicted_length hinv hinv1
    have hknot : k ∉ evicted c c1 := fun hm => evicted_subset _ _ _ hm hk
    rw [hinv.length_eq]
    by_cases hov : ((l.length : Int) + 1) > c.capacity
    · -- the map is full: the last entry goes
      have hfull : (l.length : Int) = capacity := by omega
      rcases List.eq_nil_or_concat l with rfl | ⟨m, t, rfl⟩
      · simp at hfull; omega
      · rw [List.concat_eq_append] at *
        have hk1 : l1.map Slot.key = k :: m.map Slot.key := by
          rw [← hkeys, he1]
          simp only [specPut, hn, hsl, hov, if_true]
          have hsp : (k, v) :: slotEntries (m ++ [t])
              = ((k, v) :: slotEntries m) ++ [(t.key, t.value)] := by simp [slotEntries]
          rw [hsp, List.dropLast_concat, List.map_cons, hkeys]
        have hnd := hinv.keyNodup
        simp only [List.map_append, List.map_cons, List.map_nil, List.nodup_append] at hnd
        have htm : ∀ x ∈ m, ¬ x.key = t.key := fun x hx h =>
          hnd.2.2 (List.mem_map.mpr ⟨x, hx, h⟩) (List.mem_singleton.mpr rfl)
        have htk : t.key ≠ k := by
          intro h; apply hkn; simp [h]
        have hev1 : (evicted c c1).length = 1 := by
          rw [hlen, hk1, List.map_append, List.filter_append]
          have e1 : (m.map Slot.key).filter (fun j => decide (j ∉ k :: m.map Slot.key)) = [] := by
            rw [List.filter_eq_nil_iff]
            intro j hj
            simp [hj]
          have e2 : ([t].map Slot.key).filter (fun j => decide (j ∉ k :: m.map Slot.key))
              = [t.key] := by
            simp [htk]
            exact htm
          rw [e1, e2]
          rfl
        refine ⟨c1, h1, by omega, ?_, hknot, ?_⟩
        · exact ⟨fun _ => ⟨rfl, hfull⟩, fun _ => hev1⟩
        · intro _ hlt
          omega
    · have hlt : (l.length : Int) < capacity := by omega
      have he2 : slotEntries l1 = (k, v) :: slotEntries l := by
        rw [he1]; simp only [specPut, hn, hsl, hov, if_false]
      have hk1 : l1.map Slot.key = k :: l.map Slot.key := by
        rw [← hkeys, he2, List.map_cons, hkeys]
      have hev0 : (evicted c c1).length = 0 := by
        rw [hlen, hk1, List.length_eq_zero, List.filter_eq_nil_iff]
        intro j hj
        simp [hj]
      refine ⟨c1, h1, by omega, ?_, hknot, ?_⟩
      · rw [hev0]
        constructor
        · intro h; cases h
        · rintro ⟨-, h⟩; omega
      · intro _ _
        refine ⟨by rw [hinv1.entries_eq, hinv.entries_eq, he2], ?_⟩
        rw [hinv1.length_eq]
        have : l1.length = (slotEntries l1).length := by simp [slotEntries]
        rw [this, he2, List.length_cons, hsl]

theorem put_evicts_at_most_one_witness :
    Reachable 2 ⟨2, [(2, some 1), (1, some 0)], some 1, some 0,
        [⟨1, 10, some 1, none⟩, ⟨2, 20, none, some 0⟩]⟩
      ∧ ∃ c1, Put ⟨2, [(2, some 1), (1, some 0)], some 1, some 0,
            [⟨1, 10, some 1, none⟩, ⟨2, 20, none, some 0⟩]⟩ 3 30 = some c1
        ∧ (evicted ⟨2, [(2, some 1), (1, some 0)], some 1, some 0,
            [⟨1, 10, some 1, none⟩, ⟨2, 20, none, some 0⟩]⟩ c1).length ≤ 1
        ∧ ((evicted ⟨2, [(2, some 1), (1, some 0)], some 1, some 0,
            [⟨1, 10, some 1, none⟩, ⟨2, 20, none, some 0⟩]⟩ c1).length = 1 ↔
            (List.lookup 3 [((2 : Int), some 1), (1, some 0)] = none
              ∧ (([((2 : Int), some 1), (1, some 0)].length : Nat) : Int) = 2))
        ∧ 3 ∉ evicted ⟨2, [(2, some 1), (1, some 0)], some 1, some 0,
            [⟨1, 10, some 1, none⟩, ⟨2, 20, none, some 0⟩]⟩ c1
        ∧ (List.lookup 3 [((2 : Int), some 1), (1, some 0)] = none →
            (([((2 : Int), some 1), (1, some 0)].length : Nat) : Int) < 2 →
            entries c1 = (3, 30) :: entries ⟨2, [(2, some 1), (1, some 0)], some 1, some 0,
              [⟨1, 10, some 1, none⟩, ⟨2, 20, none, some 0⟩]⟩
              ∧ c1.cache.length = [((2 : Int), some 1), (1, some 0)].length + 1) :=
  ⟨⟨[Call.put 1 10, Call.put 2 20], by decide⟩,
    put_evicts_at_most_one 2 (by decide) _ ⟨[Call.put 1 10, Call.put 2 20], by decide⟩ 3 30⟩

/-! ## Writing a value commutes with relinking -/

theorem setValue_nil (c : LRUCache) (v : Int) : setValue c none v = c := rfl

theorem setValue_invalid (c : LRUCache) (a : Nat) (v : Int) (h : c.store[a]? = none) :
    setValue c (some a) v = c := by
  simp only [setValue, assign, h]

theorem setValue_valid (c : LRUCache) (a : Nat) (v : Int) (nd : listNode)
    (h : c.store[a]? = some nd) :
    setValue c (some a) v = { c with store := c.store.set a { nd with value := v } } := by
  simp only [setValue, assign, h]

theorem setValue_cases (c : LRUCache) (n : Option Nat) (v : Int) :
    setValue c n v = c ∨ ∃ a nd, n = some a ∧ c.store[a]? = some nd
      ∧ setValue c n v = { c with store := c.store.set a { nd with value := v } } := by
  cases n with
  | none => exact Or.inl rfl
  | some a =>
    cases h : c.store[a]? with
    | none => exact Or.inl (setValue_invalid c a v h)
    | some nd => exact Or.inr ⟨a, nd, rfl, h, setValue_valid c a v nd h⟩

theorem setValue_head (c : LRUCache) (n : Option Nat) (v : Int) : (setValue c n v).head = c.head := by
  rcases setValue_cases c n v with h | ⟨a, nd, -, -, h⟩ <;> rw [h]

theorem setValue_tail (c : LRUCache) (n : Option Nat) (v : Int) : (setValue c n v).tail = c.tail := by
  rcases setValue_cases c n v with h | ⟨a, nd, -, -, h⟩ <;> rw [h]

theorem setValue_with_head (c : LRUCache) (n : Option Nat) (v : Int) (h : Option Nat) :
    setValue { c with head := h } n v = { setValue c n v with head := h } := by
  cases n with
  | none => rfl
  | some a =>
    cases hs : c.store[a]? with
    | none => rw [setValue_invalid c a v hs, setValue_invalid { c with head := h } a v hs]
    | some nd => rw [setValue_valid c a v nd hs, setValue_valid { c with head := h } a v nd hs]

theorem setValue_with_tail (c : LRUCache) (n : Option Nat) (v : Int) (t : Option Nat) :
    setValue { c with tail := t } n v = { setValue c n v with tail := t } := by
  cases n with
  | none => rfl
  | some a =>
    cases hs : c.store[a]? with
    | none => rw [setValue_invalid c a v hs, setValue_invalid { c with tail := t } a v hs]
    | some nd => rw [setValue_valid c a v nd hs, setValue_valid { c with tail := t } a v nd hs]

theorem deref_setValue (c : LRUCache) (n : Option Nat) (v : Int) (p : Option Nat) :
    deref (setValue c n v) p
      = (deref c p).map (fun x => if p = n then { x with value := v } else x) := by
  cases p with
  | none => rfl
  | some b =>
    cases n with
    | none => simp [setValue_nil, deref]
    | some a =>
      cases ha : c.store[a]? with
      | none =>
        rw [setValue_invalid _ a v ha]
        by_cases hba : b = a
        · subst hba; simp [deref, ha]
        · simp [deref, hba]
      | some na =>
        rw [setValue_valid _ a v na ha]
        by_cases hba : b = a
        · subst hba
          simp [deref, getElem?_set_same ha, ha]
        · have hab : a ≠ b := fun h => hba h.symm
          simp [deref, List.getElem?_set_ne hab, hba]

theorem assign_setValue (c : LRUCache) (n : Option Nat) (v : Int) (p : Option Nat)
    (f : listNode → listNode)
    (hf : ∀ x : listNode, f { x with value := v } = { f x with value := v }) :
    assign (setValue c n v) p f = (assign c p f).map (fun c1 => setValue c1 n v) := by
  cases p with
  | none => rfl
  | some b =>
    cases n with
    | none => cases h : assign c (some b) f <;> simp [setValue_nil, h]
    | some a =>
      cases ha : c.store[a]? with
      | none =>
        rw [setValue_invalid _ a v ha]
        cases hb : c.store[b]? with
        | none => simp [assign, hb]
        | some nb =>
          have hab : b ≠ a := by rintro rfl; rw [ha] at hb; cases hb
          simp only [assign, hb, Option.map_some']
          rw [setValue_invalid]
          simp only [List.getElem?_set_ne hab, ha]
      | some na =>
        rw [setValue_valid _ a v na ha]
        by_cases hba : b = a
        · subst hba
          simp only [assign, getElem?_set_same ha, ha, Option.map_some', List.set_set]
          rw [setValue_valid _ b v (f na) (getElem?_set_same ha)]
          simp only [List.set_set, hf]
        · have hab : a ≠ b := fun h => hba h.symm
          cases hb : c.store[b]? with
          | none => simp [assign, hb, List.getElem?_set_ne hab]
          | some nb =>
            simp only [assign, hb, List.getElem?_set_ne hab, Option.map_some']
            rw [setValue_valid _ a v na (by simp only [List.getElem?_set_ne hba, ha])]
            simp only [List.set_comm _ _ _ hab]
theorem relink_setValue (c : LRUCache) (n : Option Nat) (v : Int) (m : Option Nat) :
    relink (setValue c n v) m = (relink c m).map (fun c1 => setValue c1 n v) := by
  unfold relink
  simp only [Option.bind_eq_bind]
  rw [assign_setValue _ _ _ _ _ (fun _ => rfl)]
  cases h1 : assign c m (fun y => { y with prev := none }) with
  | none => rfl
  | some c4 =>
    simp only [Option.map_some', Option.some_bind]
    rw [setValue_head, assign_setValue _ _ _ _ _ (fun _ => rfl)]
    cases h2 : assign c4 m (fun y => { y with next := c4.head }) with
    | none => rfl
    | some c5 =>
      simp only [Option.map_some', Option.some_bind]
      rw [setValue_head]
      by_cases hh : c5.head = none
      · simp [hh, setValue_with_head]
      · simp only [ne_eq, hh, not_false_eq_true, if_true]
        rw [assign_setValue _ _ _ _ _ (fun _ => rfl)]
        cases h3 : assign c5 c5.head (fun y => { y with prev := m }) with
        | none => rfl
        | some c6 => simp [setValue_with_head]

theorem unlink_setValue (c : LRUCache) (n : Option Nat) (v : Int) (m : Option Nat) :
    unlink (setValue c n v) m = (unlink c m).map (fun c1 => setValue c1 n v) := by
  unfold unlink
  simp only [Option.bind_eq_bind]
  rw [deref_setValue]
  cases h0 : deref c m with
  | none => rfl
  | some x =>
    simp only [Option.map_some', Option.some_bind]
    have hprev : (if m = n then ({ x with value := v } : listNode) else x).prev = x.prev := by
      split <;> rfl
    have hnext : (if m = n then ({ x with value := v } : listNode) else x).next = x.next := by
      split <;> rfl
    rw [hprev, hnext]
    have step2 : ∀ c1 : LRUCache,
        ((deref (setValue c1 n v) m).bind fun x1 =>
          (if x1.next ≠ none then
              assign (setValue c1 n v) x1.next (fun y => { y with prev := x1.prev })
            else some (setValue c1 n v)).bind fun c2 =>
            if m = c2.tail then (deref c2 m).map (fun x2 => { c2 with tail := x2.prev })
            else some c2)
        = ((deref c1 m).bind fun x1 =>
          (if x1.next ≠ none then assign c1 x1.next (fun y => { y with prev := x1.prev })
            else some c1).bind fun c2 =>
            if m = c2.tail then (deref c2 m).map (fun x2 => { c2 with tail := x2.prev })
            else some c2).map (fun c1 => setValue c1 n v) := by
      intro c1
      rw [deref_setValue]
      cases h1 : deref c1 m with
      | none => rfl
      | some x1 =>
        simp only [Option.map_some', Option.some_bind]
        have hprev1 : (if m = n then ({ x1 with value := v } : listNode) else x1).prev = x1.prev := by
          split <;> rfl
        have hnext1 : (if m = n then ({ x1 with value := v } : listNode) else x1).next = x1.next := by
          split <;> rfl
        rw [hprev1, hnext1]
        have step3 : ∀ c2 : LRUCache,
            (if m = (setValue c2 n v).tail then
                (deref (setValue c2 n v) m).map (fun x2 => { setValue c2 n v with tail := x2.prev })
              else some (setValue c2 n v))
            = (if m = c2.tail then (deref c2 m).map (fun x2 => { c2 with tail := x2.prev })
              else some c2).map (fun c1 => setValue c1 n v) := by
          intro c2
          rw [setValue_tail, deref_setValue]
          by_cases ht : m = c2.tail
          · simp only [ht, if_true]
            cases h2 : deref c2 c2.tail with
            | none => rfl
            | some x2 =>
              simp only [Option.map_some']
              rw [setValue_with_tail c2 n v x2.prev]
              split <;> rfl
          · simp only [ht, if_false, Option.map_some']
        by_cases hn : x1.next = none
        · simp only [hn, ne_eq, not_true_eq_false, if_false, Option.some_bind]
          exact step3 c1
        · simp only [ne_eq, hn, not_false_eq_true, if_true]
          rw [assign_setValue _ _ _ _ _ (fun _ => rfl)]
          cases h2 : assign c1 x1.next (fun y => { y with prev := x1.prev }) with
          | none => rfl
          | some c2 =>
            simp only [Option.map_some', Option.some_bind]
            exact step3 c2
    by_cases hp : x.prev = none
    · simp only [hp, ne_eq, not_true_eq_false, if_false, Option.some_bind]
      exact step2 c
    · simp only [ne_eq, hp, not_false_eq_true, if_true]
      rw [assign_setValue _ _ _ _ _ (fun _ => rfl)]
      cases h1 : assign c x.prev (fun y => { y with next := x.next }) with
      | none => rfl
      | some c1 =>
        simp only [Option.map_some', Option.some_bind]
        exact step2 c1

theorem moveToHead_setValue (c : LRUCache) (n : Option Nat) (v : Int) (m : Option Nat) :
    moveToHead (setValue c n v) m = (moveToHead c m).map (fun c1 => setValue c1 n v) := by
  rw [moveToHead_eq, moveToHead_eq, setValue_head]
  by_cases h : m = c.head
  · simp [h]
  · simp only [h, if_false]
    rw [unlink_setValue]
    cases h1 : unlink c m with
    | none => rfl
    | some c1 =>
      simp only [Option.map_some', Option.some_bind]
      exact relink_setValue c1 n v m

/-- C8: in every reachable state, for a key `k` present in the map and every
value `v`, `Put(k, v)` and `Get(k)` both succeed, and the state after the `Put`
is exactly the state after the `Get` with `v` written into the value field of
the node of `k`: the same map (nothing is evicted, the number of entries is
the same), and the same list, with `k` first and the other entries as they
were, in their old relative order. -/
theorem put_present (capacity : Int) (c : LRUCache) (hr : Reachable capacity c) (k v : Int)
    (n : Option Nat) (hk : c.cache.lookup k = some n) :
    ∃ c1 c2 w, Put c k v = some c1 ∧ Get c k = some (c2, w)
      ∧ assign c2 n (fun x => { x with value := v }) = some c1
      ∧ c1.cache = c.cache ∧ c2.cache = c.cache
      ∧ c1.cache.length = c.cache.length
      ∧ entries c2 = (k, w) :: (entries c).filter (fun e => e.1 ≠ k)
      ∧ entries c1 = (k, v) :: (entries c).filter (fun e => e.1 ≠ k)
      ∧ c1.head = n ∧ c2.head = n ∧ c1.tail = c2.tail ∧ c1.capacity = c2.capacity := by
  obtain ⟨l, hinv, -⟩ := hr.inv
  obtain ⟨pre, e, post, rfl, rfl, rfl⟩ := hinv.find k n hk
  obtain ⟨c0, h0, hinv0, hc0, hcap0⟩ := hinv.setValue v
  obtain ⟨c2, h2, hinv2, hc2, hcap2⟩ := hinv.moveToHead
  have hinv2b : Inv c2 ([] ++ e :: (pre ++ post)) := hinv2
  obtain ⟨c1, h1, hinv1, hc1, hcap1⟩ := hinv2b.setValue v
  have hs0 : setValue c (some e.addr) v = c0 := by simp only [setValue, h0]
  have hs1 : setValue c2 (some e.addr) v = c1 := by simp only [setValue, h1]
  have hput : Put c e.key v = some c1 := by
    simp only [Put, hk, h0, Option.bind_eq_bind, Option.some_bind]
    rw [← hs0, moveToHead_setValue, h2, Option.map_some', hs1]
  have hget : Get c e.key = some (c2, e.value) := by
    simp [Get, hk, h2, deref, hinv2.seg.1]
  have hf := slotEntries_filter pre post e hinv.keyNodup
  refine ⟨c1, c2, e.value, hput, hget, h1, hc1.trans hc2, hc2, by rw [hc1, hc2], ?_, ?_,
    hinv1.head, hinv2.head, ?_, hcap1⟩
  · rw [hinv2.entries_eq, hinv.entries_eq, hf]; rfl
  · rw [hinv1.entries_eq, hinv.entries_eq, hf]; rfl
  · rw [hinv1.tail, hinv2.tail]
    exact lastAddr_value [] (pre ++ post) e v none

theorem put_present_witness :
    Reachable 2 ⟨2, [(2, some 1), (1, some 0)], some 1, some 0,
        [⟨1, 10, some 1, none⟩, ⟨2, 20, none, some 0⟩]⟩
      ∧ List.lookup 1 [((2 : Int), some 1), (1, some 0)] = some (some 0)
      ∧ ∃ c1 c2 w, Put ⟨2, [(2, some 1), (1, some 0)], some 1, some 0,
            [⟨1, 10, some 1, none⟩, ⟨2, 20, none, some 0⟩]⟩ 1 11 = some c1
        ∧ Get ⟨2, [(2, some 1), (1, some 0)], some 1, some 0,
            [⟨1, 10, some 1, none⟩, ⟨2, 20, none, some 0⟩]⟩ 1 = some (c2, w)
        ∧ assign c2 (some 0) (fun x => { x with value := 11 }) = some c1
        ∧ c1.cache = [(2, some 1), (1, some 0)] ∧ c2.cache = [(2, some 1), (1, some 0)]
        ∧ c1.cache.length = [((2 : Int), some 1), (1, some 0)].length
        ∧ entries c2 = (1, w) :: (entries ⟨2, [(2, some 1), (1, some 0)], some 1, some 0,
            [⟨1, 10, some 1, none⟩, ⟨2, 20, none, some 0⟩]⟩).filter (fun e => e.1 ≠ 1)
        ∧ entries c1 = (1, 11) :: (entries ⟨2, [(2, some 1), (1, some 0)], some 1, some 0,
            [⟨1, 10, some 1, none⟩, ⟨2, 20, none, some 0⟩]⟩).filter (fun e => e.1 ≠ 1)
        ∧ c1.head = some 0 ∧ c2.head = some 0 ∧ c1.tail = c2.tail
        ∧ c1.capacity = c2.capacity :=
  ⟨⟨[Call.put 1 10, Call.put 2 20], by decide⟩, by decide,
    put_present 2 _ ⟨[Call.put 1 10, Call.put 2 20], by decide⟩ 1 11 (some 0) (by decide)⟩

/-! ## Touch histories and the recency order -/

theorem mem_firstOccurrences (l : List Int) (k : Int) : k ∈ firstOccurrences l ↔ k ∈ l := by
  induction l with
  | nil => simp [firstOccurrences]
  | cons a r ih =>
    simp only [firstOccurrences, List.mem_cons, List.mem_filter, ih]
    by_cases h : k = a
    · simp [h]
    · simp [h]

theorem nodup_firstOccurrences (l : List Int) : (firstOccurrences l).Nodup := by
  induction l with
  | nil => simp [firstOccurrences]
  | cons a r ih =>
    simp only [firstOccurrences, List.nodup_cons, List.mem_filter]
    exact ⟨by simp, ih.filter _⟩

theorem recencyOrder_snoc (ts : List Int) (k : Int) :
    recencyOrder (ts ++ [k]) = k :: (recencyOrder ts).filter (fun j => j ≠ k) := by
  simp [recencyOrder, firstOccurrences]

theorem mem_recencyOrder (ts : List Int) (k : Int) : k ∈ recencyOrder ts ↔ k ∈ ts := by
  simp [recencyOrder, mem_firstOccurrences]

theorem nodup_recencyOrder (ts : List Int) : (recencyOrder ts).Nodup :=
  nodup_firstOccurrences _

theorem lastTouch_le (ts : List Int) (k : Int) : lastTouch ts k ≤ ts.length :=
  Nat.sub_le _ _

theorem lastTouch_snoc_self (ts : List Int) (k : Int) :
    lastTouch (ts ++ [k]) k = ts.length + 1 := by
  simp [lastTouch]

theorem lastTouch_snoc_ne (ts : List Int) (k j : Int) (h : j ≠ k) :
    lastTouch (ts ++ [k]) j = lastTouch ts j := by
  simp only [lastTouch, List.reverse_append, List.reverse_cons, List.reverse_nil, List.nil_append,
    List.singleton_append, List.length_append, List.length_singleton]
  rw [List.indexOf_cons_ne _ (fun e => h e.symm)]
  omega

theorem lastTouch_pos (ts : List Int) (k : Int) (h : k ∈ ts) : 0 < lastTouch ts k := by
  have : List.indexOf k ts.reverse < ts.reverse.length :=
    List.indexOf_lt_length.mpr (List.mem_reverse.mpr h)
  simp only [List.length_reverse] at this
  unfold lastTouch
  omega

theorem pairwise_recencyOrder (ts : List Int) :
    (recencyOrder ts).Pairwise (fun a b => lastTouch ts b < lastTouch ts a) := by
  induction ts using List.reverseRecOn with
  | nil => simp [recencyOrder, firstOccurrences]
  | append_singleton ts k ih =>
    rw [recencyOrder_snoc, List.pairwise_cons]
    constructor
    · intro b hb
      have hbk : b ≠ k := by simpa using (List.mem_filter.mp hb).2
      rw [lastTouch_snoc_self, lastTouch_snoc_ne _ _ _ hbk]
      exact Nat.lt_succ_of_le (lastTouch_le ts b)
    · refine (ih.filter _).imp_of_mem ?_
      intro a b ha hb hab
      have hak : a ≠ k := by simpa using (List.mem_filter.mp ha).2
      have hbk : b ≠ k := by simpa using (List.mem_filter.mp hb).2
      rw [lastTouch_snoc_ne _ _ _ hak, lastTouch_snoc_ne _ _ _ hbk]
      exact hab

/-! ### Taking the first `n` keys of the recency order -/

theorem filter_ne_of_notin (r : List Int) (k : Int) (h : k ∉ r) :
    r.filter (fun j => j ≠ k) = r := by
  rw [List.filter_eq_self]
  intro a ha
  simp only [ne_eq, decide_not, Bool.not_eq_eq_eq_not, Bool.not_true, decide_eq_false_iff_not]
  rintro rfl
  exact h ha

theorem take_filter_mem (r : List Int) (k : Int) (n : Nat) (hnd : r.Nodup) (hk : k ∈ r.take n) :
    (r.take n).filter (fun j => j ≠ k) = (r.filter (fun j => j ≠ k)).take (n - 1) := by
  induction r generalizing n with
  | nil => simp at hk
  | cons a r ih =>
    cases n with
    | zero => simp at hk
    | succ n =>
      simp only [List.nodup_cons] at hnd
      simp only [List.take_succ_cons, List.mem_cons] at hk
      simp only [List.take_succ_cons, Nat.add_sub_cancel, List.filter_cons]
      by_cases hak : a = k
      · subst hak
        simp only [ne_eq, not_true_eq_false, decide_False, Bool.false_eq_true, if_false]
        rw [filter_ne_of_notin r a hnd.1,
          filter_ne_of_notin (r.take n) a (fun h => hnd.1 (List.mem_of_mem_take h))]
      · have hk2 : k ∈ r.take n := by
          rcases hk with h | h
          · exact absurd h.symm hak
          · exact h
        have hn : n ≠ 0 := by rintro rfl; simp at hk2
        obtain ⟨n1, rfl⟩ : ∃ n1, n = n1 + 1 := ⟨n - 1, by omega⟩
        simp only [ne_eq, hak, not_false_eq_true, decide_True, if_true, List.take_succ_cons]
        rw [ih (n1 + 1) hnd.2 hk2]
        rfl

theorem take_filter_notin (r : List Int) (k : Int) (n m : Nat) (hk : k ∉ r.take n)
    (hm : m ≤ n) (hlen : n ≤ r.length) :
    (r.filter (fun j => j ≠ k)).take m = r.take m := by
  have hsplit : r.filter (fun j => j ≠ k)
      = r.take n ++ (r.drop n).filter (fun j => j ≠ k) := by
    conv_lhs => rw [← List.take_append_drop n r]
    rw [List.filter_append, filter_ne_of_notin _ _ hk]
  rw [hsplit, List.take_append_of_le_length (by rw [List.length_take]; omega), List.take_take]
  congr 1
  omega

theorem take_recency_touch (r : List Int) (k : Int) (n : Nat) (hn : 1 ≤ n) (hnd : r.Nodup) :
    (if k ∈ r.take n then k :: (r.take n).filter (fun j => j ≠ k)
      else if (r.take n).length + 1 > n then (k :: r.take n).dropLast else k :: r.take n)
    = (k :: r.filter (fun j => j ≠ k)).take n := by
  obtain ⟨n1, rfl⟩ : ∃ n1, n = n1 + 1 := ⟨n - 1, by omega⟩
  rw [List.take_succ_cons]
  by_cases hk : k ∈ r.take (n1 + 1)
  · rw [if_pos hk, take_filter_mem r k (n1 + 1) hnd hk]
    rfl
  · rw [if_neg hk]
    by_cases hov : (r.take (n1 + 1)).length + 1 > n1 + 1
    · rw [if_pos hov]
      have hlen : n1 + 1 ≤ r.length := by
        rw [List.length_take] at hov; omega
      rw [take_filter_notin r k (n1 + 1) n1 hk (by omega) hlen]
      have hne : r.take (n1 + 1) ≠ [] := by
        intro h; rw [h] at hov; simp at hov
      obtain ⟨a, t, hat⟩ := List.exists_cons_of_ne_nil hne
      rw [hat, List.dropLast_cons₂, ← hat, List.dropLast_eq_take, List.take_take, List.length_take]
      congr 2
      omega
    · rw [if_neg hov]
      have hlen : r.length ≤ n1 := by
        rw [List.length_take] at hov; omega
      have hr : r.take (n1 + 1) = r := List.take_of_length_le (by omega)
      rw [hr] at hk ⊢
      rw [filter_ne_of_notin r k hk, List.take_of_length_le hlen]

theorem map_fst_filter_key (es : List (Int × Int)) (k : Int) :
    (es.filter (fun e => e.1 ≠ k)).map Prod.fst = (es.map Prod.fst).filter (fun j => j ≠ k) := by
  rw [List.filter_map]
  rfl

theorem map_fst_dropLast (es : List (Int × Int)) :
    es.dropLast.map Prod.fst = (es.map Prod.fst).dropLast := by
  induction es with
  | nil => rfl
  | cons e r ih =>
    cases r with
    | nil => rfl
    | cons f r2 =>
      simp only [List.dropLast_cons₂, List.map_cons] at ih ⊢
      rw [ih]

theorem specPut_keys (capacity : Int) (es : List (Int × Int)) (k v : Int) :
    (specPut capacity es k v).map Prod.fst
      = if k ∈ es.map Prod.fst then k :: (es.map Prod.fst).filter (fun j => j ≠ k)
        else if ((es.length : Int) + 1) > capacity then (k :: es.map Prod.fst).dropLast
        else k :: es.map Prod.fst := by
  unfold specPut
  cases hk : es.lookup k with
  | some w =>
    have hm : k ∈ es.map Prod.fst := List.mem_map.mpr ⟨(k, w), lookup_mem _ _ _ hk, rfl⟩
    rw [if_pos hm]
    simp only [List.map_cons, map_fst_filter_key]
  | none =>
    rw [if_neg ((lookup_none_iff _ _).mp hk)]
    simp only
    split
    · rw [map_fst_dropLast]; rfl
    · rfl

theorem specGet_keys (es : List (Int × Int)) (k : Int) :
    (specGet es k).1.map Prod.fst
      = if k ∈ es.map Prod.fst then k :: (es.map Prod.fst).filter (fun j => j ≠ k)
        else es.map Prod.fst := by
  unfold specGet
  cases hk : es.lookup k with
  | some w =>
    have hm : k ∈ es.map Prod.fst := List.mem_map.mpr ⟨(k, w), lookup_mem _ _ _ hk, rfl⟩
    rw [if_pos hm]
    simp only [List.map_cons, map_fst_filter_key]
  | none =>
    rw [if_neg ((lookup_none_iff _ _).mp hk)]

theorem touches_append (c : LRUCache) (ops1 ops2 : List Call) :
    touches c (ops1 ++ ops2)
      = touches c ops1 ++ (match run c ops1 with
        | some c1 => touches c1 ops2
        | none => []) := by
  induction ops1 generalizing c with
  | nil => rfl
  | cons op ops ih =>
    simp only [List.cons_append, touches, run]
    cases hs : step c op with
    | none => simp
    | some c1 =>
      simp only [Option.some_bind, List.append_assoc]
      exact congrArg _ (ih c1)

theorem touches_single (c : LRUCache) (op : Call) : touches c [op] = touched c op := by
  simp only [touches]
  cases step c op <;> simp

theorem recency_inv (capacity : Int) (hcap : 1 ≤ capacity) (ops : List Call) :
    ∃ c l, run (NewLRUCache capacity) ops = some c ∧ Inv c l ∧ c.capacity = capacity
      ∧ (l.length : Int) ≤ capacity
      ∧ l.map Slot.key
          = (recencyOrder (touches (NewLRUCache capacity) ops)).take capacity.toNat := by
  induction ops using List.reverseRecOn with
  | nil =>
    exact ⟨NewLRUCache capacity, [], rfl, Inv_new capacity, rfl, by simp; omega,
      by simp [touches, recencyOrder, firstOccurrences]⟩
  | append_singleton ops op ih =>
    obtain ⟨c, l, hrun, hinv, hc, hle, hkeys⟩ := ih
    obtain ⟨c1, l1, h1, hinv1, he1, hcap1, hle1⟩ := step_bound hinv op (by rw [hc]; exact hle)
    have hrun1 : run (NewLRUCache capacity) (ops ++ [op]) = some c1 := by
      rw [run_append, hrun]
      simp [run, h1]
    have hts : touches (NewLRUCache capacity) (ops ++ [op])
        = touches (NewLRUCache capacity) ops ++ touched c op := by
      rw [touches_append, hrun]
      simp only [touches_single]
    have hk1 : l1.map Slot.key = (specStep c.capacity (slotEntries l) op).map Prod.fst := by
      rw [← he1]; simp [slotEntries, List.map_map, Function.comp_def]
    have hK : (slotEntries l).map Prod.fst = l.map Slot.key := by
      simp [slotEntries, List.map_map, Function.comp_def]
    have hsl : (slotEntries l).length = l.length := by simp [slotEntries]
    have hn : 1 ≤ capacity.toNat := by omega
    have hnd := nodup_recencyOrder (touches (NewLRUCache capacity) ops)
    have hlen : l.length = ((recencyOrder (touches (NewLRUCache capacity) ops)).take
        capacity.toNat).length := by rw [← hkeys]; simp
    refine ⟨c1, l1, hrun1, hinv1, hcap1.trans hc, by rw [← hc, ← hcap1]; exact hle1, ?_⟩
    rw [hk1, hts]
    cases op with
    | put k v =>
      simp only [specStep, touched]
      rw [specPut_keys, hK, hsl, hkeys, recencyOrder_snoc, ← take_recency_touch _ k _ hn hnd]
      by_cases hk : k ∈ (recencyOrder (touches (NewLRUCache capacity) ops)).take capacity.toNat
      · rw [if_pos hk, if_pos hk]
      · rw [if_neg hk, if_neg hk]
        have hiff : ((l.length : Int) + 1 > c.capacity) ↔
            (((recencyOrder (touches (NewLRUCache capacity) ops)).take capacity.toNat).length + 1
              > capacity.toNat) := by
          rw [← hlen, hc]; omega
        by_cases hov : (l.length : Int) + 1 > c.capacity
        · rw [if_pos hov, if_pos (hiff.mp hov)]
        · rw [if_neg hov, if_neg (fun h => hov (hiff.mpr h))]
    | get k =>
      simp only [specStep, touched]
      rw [specGet_keys, hK, hkeys]
      by_cases hk : k ∈ (recencyOrder (touches (NewLRUCache capacity) ops)).take capacity.toNat
      · have hsome : (c.cache.lookup k).isSome = true := by
          cases hl : c.cache.lookup k with
          | none =>
            have := (hinv.lookup_none k).mp hl
            rw [hkeys] at this
            exact absurd hk this
          | some p => rfl
        rw [if_pos hk, hsome, if_pos rfl, recencyOrder_snoc, ← take_recency_touch _ k _ hn hnd,
          if_pos hk]
      · have hnone : (c.cache.lookup k).isSome = false := by
          have : c.cache.lookup k = none := by
            rw [hinv.lookup_none, hkeys]; exact hk
          rw [this]; rfl
        rw [if_neg hk, hnone]
        simp

/-- C3: for every capacity >= 1 and every sequence of `Put` and `Get` calls
applied to `NewLRUCache(capacity)`, the calls succeed and the keys met from head
to tail are the first `capacity` keys of the recency order of the touch history
(every `Put` and every `Get` that finds its key is a touch): the recency order
holds each touched key once, a key touched later before a key touched earlier;
and every touched key that is not in the list was last touched before every key
that is. -/
theorem keys_recency (capacity : Int) (hcap : 1 ≤ capacity) (calls : List Call) :
    ∃ c, run (NewLRUCache capacity) calls = some c
      ∧ keys c = (recencyOrder (touches (NewLRUCache capacity) calls)).take capacity.toNat
      ∧ (recencyOrder (touches (NewLRUCache capacity) calls)).Nodup
      ∧ (∀ k : Int, k ∈ recencyOrder (touches (NewLRUCache capacity) calls)
          ↔ k ∈ touches (NewLRUCache capacity) calls)
      ∧ (recencyOrder (touches (NewLRUCache capacity) calls)).Pairwise
          (fun a b => lastTouch (touches (NewLRUCache capacity) calls) b
            < lastTouch (touches (NewLRUCache capacity) calls) a)
      ∧ (∀ x ∈ touches (NewLRUCache capacity) calls, x ∉ keys c → ∀ y ∈ keys c,
          lastTouch (touches (NewLRUCache capacity) calls) x
            < lastTouch (touches (NewLRUCache capacity) calls) y) := by
  obtain ⟨c, l, hrun, hinv, -, -, hkeys⟩ := recency_inv capacity hcap calls
  have hk : keys c = (recencyOrder (touches (NewLRUCache capacity) calls)).take capacity.toNat := by
    rw [hinv.keys_eq, hkeys]
  refine ⟨c, hrun, hk, nodup_recencyOrder _, mem_recencyOrder _, pairwise_recencyOrder _, ?_⟩
  intro x hx hxn y hy
  rw [hk] at hxn hy
  have hpw := pairwise_recencyOrder (touches (NewLRUCache capacity) calls)
  rw [← List.take_append_drop capacity.toNat
    (recencyOrder (touches (NewLRUCache capacity) calls)), List.pairwise_append] at hpw
  have hxr := (mem_recencyOrder _ x).mpr hx
  rw [← List.take_append_drop capacity.toNat
    (recencyOrder (touches (NewLRUCache capacity) calls)), List.mem_append] at hxr
  rcases hxr with h | h
  · exact absurd h hxn
  · exact hpw.2.2 y hy x h

theorem keys_recency_witness :
    ∃ c, run (NewLRUCache 2) [Call.put 1 1, Call.put 2 2, Call.get 1, Call.put 3 3] = some c
      ∧ keys c = (recencyOrder (touches (NewLRUCache 2)
          [Call.put 1 1, Call.put 2 2, Call.get 1, Call.put 3 3])).take (2 : Int).toNat
      ∧ (recencyOrder (touches (NewLRUCache 2)
          [Call.put 1 1, Call.put 2 2, Call.get 1, Call.put 3 3])).Nodup
      ∧ (∀ k : Int, k ∈ recencyOrder (touches (NewLRUCache 2)
            [Call.put 1 1, Call.put 2 2, Call.get 1, Call.put 3 3])
          ↔ k ∈ touches (NewLRUCache 2) [Call.put 1 1, Call.put 2 2, Call.get 1, Call.put 3 3])
      ∧ (recencyOrder (touches (NewLRUCache 2)
          [Call.put 1 1, Call.put 2 2, Call.get 1, Call.put 3 3])).Pairwise
          (fun a b => lastTouch (touches (NewLRUCache 2)
              [Call.put 1 1, Call.put 2 2, Call.get 1, Call.put 3 3]) b
            < lastTouch (touches (NewLRUCache 2)
              [Call.put 1 1, Call.put 2 2, Call.get 1, Call.put 3 3]) a)
      ∧ (∀ x ∈ touches (NewLRUCache 2) [Call.put 1 1, Call.put 2 2, Call.get 1, Call.put 3 3],
          x ∉ keys c → ∀ y ∈ keys c,
          lastTouch (touches (NewLRUCache 2)
              [Call.put 1 1, Call.put 2 2, Call.get 1, Call.put 3 3]) x
            < lastTouch (touches (NewLRUCache 2)
              [Call.put 1 1, Call.put 2 2, Call.get 1, Call.put 3 3]) y) :=
  keys_recency 2 (by decide) [Call.put 1 1, Call.put 2 2, Call.get 1, Call.put 3 3]

/-- C2: for every capacity >= 1, in a state reached from `NewLRUCache(capacity)`
whose map holds exactly `capacity` entries, `Put(k, v)` of a key absent from the
map succeeds; there is a key of the map whose last touch (by a `Put` or by a
`Get` that found it) is older than that of every other key of the map; that key
is absent from the map afterwards and `Get` returns -1 for it; every other key
of the map is still in the map, with the value it had, which `Get` returns. -/
theorem put_evicts_lru (capacity : Int) (hcap : 1 ≤ capacity) (calls : List Call) (c : LRUCache)
    (hrun : run (NewLRUCache capacity) calls = some c)
    (hfull : (c.cache.length : Int) = capacity) (k v : Int) (hk : c.cache.lookup k = none) :
    ∃ c1 x, Put c k v = some c1
      ∧ c.cache.lookup x ≠ none
      ∧ (∀ y : Int, c.cache.lookup y ≠ none → y ≠ x →
          lastTouch (touches (NewLRUCache capacity) calls) x
            < lastTouch (touches (NewLRUCache capacity) calls) y)
      ∧ c1.cache.lookup x = none ∧ Get c1 x = some (c1, -1)
      ∧ (∀ y : Int, c.cache.lookup y ≠ none → y ≠ x →
          ∃ w c2, (entries c).lookup y = some w ∧ (entries c1).lookup y = some w
            ∧ c1.cache.lookup y ≠ none ∧ Get c1 y = some (c2, w)) := by
  obtain ⟨c0, l, hrun0, hinv, hc, -, hkeys⟩ := recency_inv capacity hcap calls
  rw [hrun] at hrun0
  cases hrun0
  rw [hinv.length_eq] at hfull
  have hkn := (hinv.lookup_none k).mp hk
  rcases List.eq_nil_or_concat l with rfl | ⟨m, t, rfl⟩
  · simp at hfull; omega
  rw [List.concat_eq_append] at *
  obtain ⟨c1, l1, h1, hinv1, he1, hcap1⟩ := Put_spec_absent hinv k v hk
  have hsl : (slotEntries (m ++ [t])).length = (m ++ [t]).length := by simp [slotEntries]
  have hov : ((m ++ [t]).length : Int) + 1 > c.capacity := by rw [hc]; omega
  have hsp : (k, v) :: slotEntries (m ++ [t])
      = ((k, v) :: slotEntries m) ++ [(t.key, t.value)] := by simp [slotEntries]
  have he2 : slotEntries l1 = (k, v) :: slotEntries m := by
    rw [he1]
    simp only [specPut, slotEntries_lookup_none _ k hkn, hsl, hov, if_true]
    rw [hsp, List.dropLast_concat]
  have hkeysS : ∀ l : List Slot, (slotEntries l).map Prod.fst = l.map Slot.key := fun l => by
    simp [slotEntries, List.map_map, Function.comp_def]
  have hk1 : l1.map Slot.key = k :: m.map Slot.key := by
    rw [← hkeysS, he2, List.map_cons, hkeysS]
  have hnd := hinv.keyNodup
  simp only [List.map_append, List.map_cons, List.map_nil, List.nodup_append] at hnd
  have htm : t.key ∉ m.map Slot.key := fun h => hnd.2.2 h (List.mem_singleton.mpr rfl)
  have htk : t.key ≠ k := by
    intro h; apply hkn; simp [h]
  have hx1 : c1.cache.lookup t.key = none := by
    rw [hinv1.lookup_none, hk1]
    simp only [List.mem_cons, not_or]
    exact ⟨htk, htm⟩
  have hmem : ∀ y : Int, c.cache.lookup y ≠ none → y ≠ t.key → y ∈ m.map Slot.key := by
    intro y hy hyt
    rw [Ne, hinv.lookup_none, not_not] at hy
    simp only [List.map_append, List.map_cons, List.map_nil, List.mem_append,
      List.mem_singleton] at hy
    rcases hy with h | h
    · exact h
    · exact absurd h hyt
  refine ⟨c1, t.key, h1, ?_, ?_, hx1, by simp only [Get, hx1], ?_⟩
  · rw [Ne, hinv.lookup_none]; simp
  · intro y hy hyt
    have hym := hmem y hy hyt
    have hpw := (pairwise_recencyOrder (touches (NewLRUCache capacity) calls)).sublist
      (List.take_sublist capacity.toNat _)
    rw [← hkeys, List.map_append, List.pairwise_append] at hpw
    exact hpw.2.2 y hym t.key (by simp)
  · intro y hy hyt
    have hym := hmem y hy hyt
    obtain ⟨e, hem, rfl⟩ := List.mem_map.mp hym
    have hin : (e.key, e.value) ∈ slotEntries (m ++ [t]) := by
      simp only [slotEntries, List.map_append, List.mem_append, List.mem_map]
      exact Or.inl ⟨e, hem, rfl⟩
    have hin1 : (e.key, e.value) ∈ slotEntries l1 := by
      rw [he2]
      simp only [slotEntries, List.mem_cons, List.mem_map]
      exact Or.inr ⟨e, hem, rfl⟩
    have hl0 := lookup_of_mem _ (slotEntries_keyNodup _ hinv.keyNodup) _ _ hin
    have hl1 := lookup_of_mem _ (slotEntries_keyNodup _ hinv1.keyNodup) _ _ hin1
    obtain ⟨c2, l2, h2, -⟩ := Get_spec hinv1 e.key
    refine ⟨e.value, c2, by rw [hinv.entries_eq]; exact hl0, by rw [hinv1.entries_eq]; exact hl1,
      ?_, ?_⟩
    · rw [Ne, hinv1.lookup_none, hk1, not_not]
      exact List.mem_cons_of_mem _ hym
    · rw [h2]
      simp [specGet, hl1]

theorem put_evicts_lru_witness :
    run (NewLRUCache 2) [Call.put 1 10, Call.put 2 20, Call.get 1]
        = some ⟨2, [(2, some 1), (1, some 0)], some 0, some 1,
            [⟨1, 10, none, some 1⟩, ⟨2, 20, some 0, none⟩]⟩
      ∧ (([((2 : Int), (some 1 : Option Nat)), (1, some 0)].length : Nat) : Int) = 2
      ∧ List.lookup 3 [((2 : Int), (some 1 : Option Nat)), (1, some 0)] = none
      ∧ ∃ c1 x, Put ⟨2, [(2, some 1), (1, some 0)], some 0, some 1,
            [⟨1, 10, none, some 1⟩, ⟨2, 20, some 0, none⟩]⟩ 3 30 = some c1
        ∧ List.lookup x [((2 : Int), (some 1 : Option Nat)), (1, some 0)] ≠ none
        ∧ (∀ y : Int, List.lookup y [((2 : Int), (some 1 : Option Nat)), (1, some 0)] ≠ none →
            y ≠ x →
            lastTouch (touches (NewLRUCache 2) [Call.put 1 10, Call.put 2 20, Call.get 1]) x
              < lastTouch (touches (NewLRUCache 2) [Call.put 1 10, Call.put 2 20, Call.get 1]) y)
        ∧ c1.cache.lookup x = none ∧ Get c1 x = some (c1, -1)
        ∧ (∀ y : Int, List.lookup y [((2 : Int), (some 1 : Option Nat)), (1, some 0)] ≠ none →
            y ≠ x →
            ∃ w c2, (entries ⟨2, [(2, some 1), (1, some 0)], some 0, some 1,
                [⟨1, 10, none, some 1⟩, ⟨2, 20, some 0, none⟩]⟩).lookup y = some w
              ∧ (entries c1).lookup y = some w
              ∧ c1.cache.lookup y ≠ none ∧ Get c1 y = some (c2, w)) :=
  ⟨by decide, by decide, by decide,
    put_evicts_lru 2 (by decide) [Call.put 1 10, Call.put 2 20, Call.get 1] _ (by decide)
      (by decide) 3 30 (by decide)⟩

/-! ## Construction -/

/-- C11 (as amended): `NewLRUCache(capacity)` never fails. For every capacity,
also capacity <= 0, the call returns an empty cache (no keys, `head` and `tail`
nil) with that capacity, and every sequence of `Put` and `Get` calls applied to
it runs without error. -/
theorem new_never_fails (capacity : Int) (calls : List Call) :
    NewLRUCacheCall capacity = some (NewLRUCache capacity)
      ∧ (NewLRUCache capacity).capacity = capacity
      ∧ (NewLRUCache capacity).cache = []
      ∧ (NewLRUCache capacity).head = none ∧ (NewLRUCache capacity).tail = none
      ∧ ∃ c, run (NewLRUCache capacity) calls = some c := by
  obtain ⟨c, l, h, -⟩ := run_spec (Inv_new capacity) calls
  exact ⟨rfl, rfl, rfl, rfl, rfl, c, h⟩

/-- C11 fails as stated: the construction with capacity 0 (and with capacity
-1) does not fail; it returns a cache, on which `Put` and `Get` run. -/
theorem new_nonpositive_counterexample :
    ¬ (NewLRUCacheCall 0 = none) ∧ ¬ (NewLRUCacheCall (-1) = none)
      ∧ NewLRUCacheCall 0 = some ⟨0, [], none, none, []⟩
      ∧ run (NewLRUCache 0) [Call.put 1 1, Call.get 1]
          = some ⟨0, [], none, none, [⟨1, 1, none, none⟩]⟩ := by
  decide

/-! ## Map and list agree -/

theorem Inv.listInv {c : LRUCache} {l : List Slot} (h : Inv c l) : ListInv c l :=
  { addrNodup := h.addrNodup, head := h.head, tail := h.tail, seg := h.seg }

theorem ListInv.chain_addrs {c : LRUCache} {l : List Slot} (h : ListInv c l) :
    chain c = l.map Slot.addr := by
  unfold chain
  rw [h.head]
  exact walk_of_Seg _ _ _ _ h.seg (Seg_length_le _ _ _ _ h.seg h.addrNodup)

/-- C13: in every state reachable from `NewLRUCache(capacity)` by `Put` and
`Get` calls, a key is in the map if and only if it is the key of a node met by
following `next` links from `head`; the keys of the map are a rearrangement of
the keys of the list. -/
theorem map_keys_eq_list_keys (capacity : Int) (c : LRUCache) (hr : Reachable capacity c) :
    (∀ k : Int, c.cache.lookup k ≠ none ↔ k ∈ keys c)
      ∧ (∀ k : Int, k ∈ mapKeys c ↔ k ∈ keys c)
      ∧ (mapKeys c).Perm (keys c) := by
  obtain ⟨l, hinv, -⟩ := hr.inv
  have hp : (mapKeys c).Perm (keys c) := by
    rw [hinv.keys_eq]; exact hinv.mapKeys_perm
  refine ⟨fun k => ?_, fun k => hp.mem_iff, hp⟩
  rw [Ne, hinv.lookup_none, hinv.keys_eq, not_not]

theorem map_keys_eq_list_keys_witness :
    Reachable 2 ⟨2, [(2, some 1), (1, some 0)], some 1, some 0,
        [⟨1, 10, some 1, none⟩, ⟨2, 20, none, some 0⟩]⟩
      ∧ (∀ k : Int, List.lookup k [((2 : Int), (some 1 : Option Nat)), (1, some 0)] ≠ none
          ↔ k ∈ keys ⟨2, [(2, some 1), (1, some 0)], some 1, some 0,
            [⟨1, 10, some 1, none⟩, ⟨2, 20, none, some 0⟩]⟩)
      ∧ (∀ k : Int, k ∈ mapKeys ⟨2, [(2, some 1), (1, some 0)], some 1, some 0,
            [⟨1, 10, some 1, none⟩, ⟨2, 20, none, some 0⟩]⟩
          ↔ k ∈ keys ⟨2, [(2, some 1), (1, some 0)], some 1, some 0,
            [⟨1, 10, some 1, none⟩, ⟨2, 20, none, some 0⟩]⟩)
      ∧ (mapKeys ⟨2, [(2, some 1), (1, some 0)], some 1, some 0,
            [⟨1, 10, some 1, none⟩, ⟨2, 20, none, some 0⟩]⟩).Perm
          (keys ⟨2, [(2, some 1), (1, some 0)], some 1, some 0,
            [⟨1, 10, some 1, none⟩, ⟨2, 20, none, some 0⟩]⟩) :=
  ⟨⟨[Call.put 1 10, Call.put 2 20], by decide⟩,
    map_keys_eq_list_keys 2 ⟨2, [(2, some 1), (1, some 0)], some 1, some 0,
        [⟨1, 10, some 1, none⟩, ⟨2, 20, none, some 0⟩]⟩
      ⟨[Call.put 1 10, Call.put 2 20], by decide⟩⟩

/-! ## The list is well formed -/

theorem lastAddr_concat (p : Option Nat) (l : List Slot) (x : Slot) :
    lastAddr p (l ++ [x]) = some x.addr := by
  rw [lastAddr_append]; rfl

theorem ListInv.node {c : LRUCache} {pre post : List Slot} {e : Slot}
    (h : ListInv c (pre ++ e :: post)) :
    c.store[e.addr]? = some ⟨e.key, e.value, lastAddr none pre, firstAddr post none⟩ :=
  ((Seg_append _ _ _ _ _).mp h.seg).2.1

theorem ListInv.next_prev {c : LRUCache} {pre post : List Slot} {e : Slot}
    (h : ListInv c (pre ++ e :: post)) (b : Nat) (hb : firstAddr post none = some b) :
    ∃ nb, c.store[b]? = some nb ∧ nb.prev = some e.addr := by
  cases post with
  | nil => simp [firstAddr] at hb
  | cons f r =>
    simp only [firstAddr, Option.some.injEq] at hb
    subst hb
    exact ⟨_, ((Seg_append _ _ _ _ _).mp h.seg).2.2.1, rfl⟩

theorem ListInv.prev_next {c : LRUCache} {pre post : List Slot} {e : Slot}
    (h : ListInv c (pre ++ e :: post)) (b : Nat) (hb : lastAddr none pre = some b) :
    ∃ nb, c.store[b]? = some nb ∧ nb.next = some e.addr := by
  rcases List.eq_nil_or_concat pre with rfl | ⟨m, x, rfl⟩
  · simp [lastAddr] at hb
  · rw [List.concat_eq_append] at hb h
    rw [lastAddr_concat, Option.some.injEq] at hb
    subst hb
    have h1 := ((Seg_append _ _ _ _ _).mp h.seg).1
    exact ⟨_, ((Seg_append _ _ _ _ _).mp h1).2.1, rfl⟩

theorem ListInv.head_tail {c : LRUCache} {l : List Slot} (h : ListInv c l) :
    (l = [] → c.head = none ∧ c.tail = none)
      ∧ (l ≠ [] → c.head ≠ none ∧ c.tail ≠ none)
      ∧ (l.length = 1 → c.head = c.tail)
      ∧ (c.head = none ∨ ∃ x, deref c c.head = some x ∧ x.prev = none)
      ∧ (c.tail = none ∨ ∃ x, deref c c.tail = some x ∧ x.next = none) := by
  rcases List.eq_nil_or_concat l with rfl | ⟨m, t, rfl⟩
  · have hh := h.head
    have ht := h.tail
    simp only [firstAddr, lastAddr, List.getLast?_nil] at hh ht
    exact ⟨fun _ => ⟨hh, ht⟩, fun hne => absurd rfl hne, fun hl => by simp at hl,
      Or.inl hh, Or.inl ht⟩
  · rw [List.concat_eq_append] at h ⊢
    have ht : c.tail = some t.addr := by rw [h.tail, lastAddr_concat]
    have hnode : c.store[t.addr]? = some ⟨t.key, t.value, lastAddr none m, none⟩ := h.node
    have htail : c.tail = none ∨ ∃ x, deref c c.tail = some x ∧ x.next = none :=
      Or.inr ⟨_, by rw [ht]; exact hnode, rfl⟩
    cases m with
    | nil =>
      have hh : c.head = some t.addr := h.head
      refine ⟨fun hl => by simp at hl, fun _ => ⟨by rw [hh]; simp, by rw [ht]; simp⟩,
        fun _ => by rw [hh, ht], Or.inr ⟨_, by rw [hh]; exact hnode, rfl⟩, htail⟩
    | cons e r =>
      have hh : c.head = some e.addr := h.head
      have he : c.store[e.addr]? = some ⟨e.key, e.value, none, firstAddr (r ++ [t]) none⟩ :=
        h.seg.1
      refine ⟨fun hl => by simp at hl, fun _ => ⟨by rw [hh]; simp, by rw [ht]; simp⟩,
        fun hl => by simp at hl, Or.inr ⟨_, by rw [hh]; exact he, rfl⟩, htail⟩

/-- C14: in every state reachable from `NewLRUCache(capacity)` by `Put` and
`Get` calls the list is well formed: every node of the list is the `prev` of
its `next` and the `next` of its `prev`, when it has them; `head.prev` and
`tail.next` are nil; `head` and `tail` are nil when the cache is empty, both
not nil when it is not, and the same node when it holds one entry. -/
theorem list_well_formed (capacity : Int) (c : LRUCache) (hr : Reachable capacity c) :
    (∀ a ∈ chain c, ∃ nd, c.store[a]? = some nd
        ∧ (∀ b, nd.next = some b → ∃ nb, c.store[b]? = some nb ∧ nb.prev = some a)
        ∧ (∀ b, nd.prev = some b → ∃ nb, c.store[b]? = some nb ∧ nb.next = some a))
      ∧ (c.head = none ∨ ∃ x, deref c c.head = some x ∧ x.prev = none)
      ∧ (c.tail = none ∨ ∃ x, deref c c.tail = some x ∧ x.next = none)
      ∧ (chain c).length = c.cache.length
      ∧ (c.cache.length = 0 → c.head = none ∧ c.tail = none)
      ∧ (0 < c.cache.length → c.head ≠ none ∧ c.tail ≠ none)
      ∧ (c.cache.length = 1 → c.head = c.tail) := by
  obtain ⟨l, hinv, -⟩ := hr.inv
  have hl := hinv.listInv
  obtain ⟨h1, h2, h3, h4, h5⟩ := hl.head_tail
  have hlen := hinv.length_eq
  refine ⟨?_, h4, h5, by rw [hl.chain_addrs, List.length_map, hlen], ?_, ?_, ?_⟩
  · intro a ha
    rw [hl.chain_addrs] at ha
    obtain ⟨e, he, rfl⟩ := List.mem_map.mp ha
    obtain ⟨pre, post, rfl⟩ := List.append_of_mem he
    exact ⟨_, hl.node, fun b hb => hl.next_prev b hb, fun b hb => hl.prev_next b hb⟩
  · intro h0
    exact h1 (List.length_eq_zero.mp (by rw [← hlen]; exact h0))
  · intro h0
    exact h2 (fun hnil => by rw [hlen, hnil] at h0; simp at h0)
  · intro h0
    exact h3 (by rw [← hlen]; exact h0)

theorem list_well_formed_witness :
    Reachable 2 ⟨2, [(2, some 1), (1, some 0)], some 1, some 0,
        [⟨1, 10, some 1, none⟩, ⟨2, 20, none, some 0⟩]⟩
      ∧ ((∀ a ∈ chain ⟨2, [(2, some 1), (1, some 0)], some 1, some 0,
            [⟨1, 10, some 1, none⟩, ⟨2, 20, none, some 0⟩]⟩,
          ∃ nd, [(⟨1, 10, some 1, none⟩ : listNode), ⟨2, 20, none, some 0⟩][a]? = some nd
            ∧ (∀ b, nd.next = some b → ∃ nb,
                [(⟨1, 10, some 1, none⟩ : listNode), ⟨2, 20, none, some 0⟩][b]? = some nb
                  ∧ nb.prev = some a)
            ∧ (∀ b, nd.prev = some b → ∃ nb,
                [(⟨1, 10, some 1, none⟩ : listNode), ⟨2, 20, none, some 0⟩][b]? = some nb
                  ∧ nb.next = some a))
        ∧ ((some 1 : Option Nat) = none ∨ ∃ x, deref ⟨2, [(2, some 1), (1, some 0)], some 1,
            some 0, [⟨1, 10, some 1, none⟩, ⟨2, 20, none, some 0⟩]⟩ (some 1) = some x
              ∧ x.prev = none)
        ∧ ((some 0 : Option Nat) = none ∨ ∃ x, deref ⟨2, [(2, some 1), (1, some 0)], some 1,
            some 0, [⟨1, 10, some 1, none⟩, ⟨2, 20, none, some 0⟩]⟩ (some 0) = some x
              ∧ x.next = none)
        ∧ (chain ⟨2, [(2, some 1), (1, some 0)], some 1, some 0,
            [⟨1, 10, some 1, none⟩, ⟨2, 20, none, some 0⟩]⟩).length
            = [((2 : Int), (some 1 : Option Nat)), (1, some 0)].length
        ∧ ([((2 : Int), (some 1 : Option Nat)), (1, some 0)].length = 0 →
            (some 1 : Option Nat) = none ∧ (some 0 : Option Nat) = none)
        ∧ (0 < [((2 : Int), (some 1 : Option Nat)), (1, some 0)].length →
            (some 1 : Option Nat) ≠ none ∧ (some 0 : Option Nat) ≠ none)
        ∧ ([((2 : Int), (some 1 : Option Nat)), (1, some 0)].length = 1 →
            (some 1 : Option Nat) = some 0)) :=
  ⟨⟨[Call.put 1 10, Call.put 2 20], by decide⟩,
    list_well_formed 2 ⟨2, [(2, some 1), (1, some 0)], some 1, some 0,
        [⟨1, 10, some 1, none⟩, ⟨2, 20, none, some 0⟩]⟩
      ⟨[Call.put 1 10, Call.put 2 20], by decide⟩⟩

/-! ## The branches of `Put` -/

theorem Put_absent_eq (c : LRUCache) (k v : Int) (hk : c.cache.lookup k = none) :
    Put c k v = (putInsert c k v).bind (fun c3 =>
      if (c3.cache.length : Int) > c3.capacity then putEvict c3 else some c3) := by
  simp only [Put, hk, putInsert, putEvict, Option.bind_eq_bind]

theorem set_same {s : List listNode} {a : Nat} {x : listNode} (h : s[a]? = some x) :
    s.set a x = s := by
  apply List.ext_getElem?
  intro i
  by_cases hi : a = i
  · subst hi; rw [getElem?_set_same h, h]
  · rw [List.getElem?_set_ne hi]

theorem putInsert_empty (c : LRUCache) (k v : Int) (hc : c.cache = []) (hh : c.head = none)
    (ht : c.tail = none) :
    putInsert c k v = some ⟨c.capacity, [(k, some c.store.length)], some c.store.length,
      some c.store.length, c.store ++ [⟨k, v, none, none⟩]⟩ := by
  have hst : (c.store ++ [(⟨k, v, none, none⟩ : listNode)])[c.store.length]?
      = some ⟨k, v, none, none⟩ := by simp
  simp only [putInsert, addHead, assign, hc, hh, ht, hst, Option.bind_eq_bind, Option.some_bind,
    set_same hst, List.filter_nil, ne_eq, not_true_eq_false, if_false, if_true]

theorem putEvict_single (cap : Int) (k v : Int) (s : List listNode) :
    putEvict ⟨cap, [(k, some s.length)], some s.length, some s.length, s ++ [⟨k, v, none, none⟩]⟩
      = some ⟨cap, [], none, none, s ++ [⟨k, v, none, none⟩]⟩
    ∧ popTail ⟨cap, [(k, some s.length)], some s.length, some s.length, s ++ [⟨k, v, none, none⟩]⟩
      = some (⟨cap, [(k, some s.length)], none, none, s ++ [⟨k, v, none, none⟩]⟩,
          some s.length) := by
  have hst : (s ++ [(⟨k, v, none, none⟩ : listNode)])[s.length]? = some ⟨k, v, none, none⟩ := by
    simp
  constructor
  · simp [putEvict, popTail, deref, hst]
  · simp [popTail, deref, hst]

/-! ## Capacity zero or less -/

theorem Put_empty_nonpositive (c : LRUCache) (k v : Int) (hcap : c.capacity ≤ 0)
    (hc : c.cache = []) (hh : c.head = none) (ht : c.tail = none) :
    Put c k v = some ⟨c.capacity, [], none, none, c.store ++ [⟨k, v, none, none⟩]⟩ := by
  have hk : c.cache.lookup k = none := by rw [hc]; rfl
  rw [Put_absent_eq c k v hk, putInsert_empty c k v hc hh ht, Option.some_bind]
  have hov : ((([(k, some c.store.length)] : List (Int × Option Nat)).length : Nat) : Int)
      > c.capacity := by
    simp only [List.length_singleton, Nat.cast_one]; omega
  rw [if_pos hov]
  exact (putEvict_single c.capacity k v c.store).1

theorem Get_empty (c : LRUCache) (k : Int) (hc : c.cache = []) : Get c k = some (c, -1) := by
  simp only [Get, hc, List.lookup_nil]

theorem run_nonpositive (c : LRUCache) (calls : List Call) (hcap : c.capacity ≤ 0)
    (hc : c.cache = []) (hh : c.head = none) (ht : c.tail = none) :
    ∃ c1, run c calls = some c1 ∧ c1.capacity = c.capacity ∧ c1.cache = [] ∧ c1.head = none
      ∧ c1.tail = none := by
  induction calls generalizing c with
  | nil => exact ⟨c, rfl, rfl, hc, hh, ht⟩
  | cons op ops ih =>
    cases op with
    | put k v =>
      obtain ⟨c1, h1, h2, h3⟩ := ih ⟨c.capacity, [], none, none, c.store ++ [⟨k, v, none, none⟩]⟩
        hcap rfl rfl rfl
      exact ⟨c1, by simp only [run, step, Put_empty_nonpositive c k v hcap hc hh ht,
        Option.some_bind, h1], h2, h3⟩
    | get k =>
      obtain ⟨c1, h1, h2⟩ := ih c hcap hc hh ht
      exact ⟨c1, by simp only [run, step, Get_empty c k hc, Option.map_some', Option.some_bind,
        h1], h2⟩

/-- C16: for every capacity <= 0 the cache of `NewLRUCache(capacity)` is always
evicting. After every sequence of calls the calls have succeeded and the cache
is empty (no keys in the map, `head` and `tail` nil); every `Get` returns -1 and
changes nothing; every `Put(k, v)` succeeds, `popTail` removes the very node
that was just inserted, and the cache is empty again, so that the `Get(k)` that
follows returns -1. -/
theorem nonpositive_always_evicting (capacity : Int) (hcap : capacity ≤ 0) (calls : List Call) :
    ∃ c, run (NewLRUCache capacity) calls = some c
      ∧ c.capacity = capacity ∧ c.cache = [] ∧ c.head = none ∧ c.tail = none
      ∧ (∀ j : Int, Get c j = some (c, -1))
      ∧ (∀ k v : Int, ∃ c1 c3 c4, Put c k v = some c1
          ∧ c1 = ⟨capacity, [], none, none, c.store ++ [⟨k, v, none, none⟩]⟩
          ∧ putInsert c k v = some c3 ∧ c3.head = some c.store.length
          ∧ (c3.cache.length : Int) > c3.capacity
          ∧ popTail c3 = some (c4, some c.store.length)
          ∧ Get c1 k = some (c1, -1)) := by
  obtain ⟨c, hrun, hc0, hc, hh, ht⟩ := run_nonpositive (NewLRUCache capacity) calls hcap rfl rfl rfl
  have hc0 : c.capacity = capacity := hc0
  refine ⟨c, hrun, hc0, hc, hh, ht, fun j => Get_empty c j hc, fun k v => ?_⟩
  refine ⟨_, _, _, by rw [Put_empty_nonpositive c k v (by rw [hc0]; exact hcap) hc hh ht, hc0],
    rfl, putInsert_empty c k v hc hh ht, rfl, ?_, (putEvict_single c.capacity k v c.store).2,
    Get_empty _ k rfl⟩
  simp only [List.length_singleton, Nat.cast_one]
  omega

theorem nonpositive_always_evicting_witness :
    (0 : Int) ≤ 0 ∧
    ∃ c, run (NewLRUCache 0) [Call.put 1 1, Call.get 1, Call.put 2 2] = some c
      ∧ c.capacity = 0 ∧ c.cache = [] ∧ c.head = none ∧ c.tail = none
      ∧ (∀ j : Int, Get c j = some (c, -1))
      ∧ (∀ k v : Int, ∃ c1 c3 c4, Put c k v = some c1
          ∧ c1 = ⟨0, [], none, none, c.store ++ [⟨k, v, none, none⟩]⟩
          ∧ putInsert c k v = some c3 ∧ c3.head = some c.store.length
          ∧ (c3.cache.length : Int) > c3.capacity
          ∧ popTail c3 = some (c4, some c.store.length)
          ∧ Get c1 k = some (c1, -1)) :=
  ⟨by decide, nonpositive_always_evicting 0 (by decide) [Call.put 1 1, Call.get 1, Call.put 2 2]⟩

theorem putInsert_spec {c : LRUCache} {l : List Slot} (h : Inv c l) (k v : Int)
    (hk : c.cache.lookup k = none) :
    ∃ c3, putInsert c k v = some c3 ∧ Inv c3 (⟨c.store.length, k, v⟩ :: l)
      ∧ c3.capacity = c.capacity ∧ c3.cache = (k, some c.store.length) :: c.cache := by
  have hkn := (h.lookup_none k).mp hk
  have hfil := filter_key_notin c.cache k ((lookup_none_iff _ _).mp hk)
  have hfresh : c.store.length ∉ l.map Slot.addr := fun hm =>
    absurd (Seg_valid _ _ _ _ h.seg _ hm) (lt_irrefl _)
  obtain ⟨c3, h3, hh3, ht3, hc3, hcap3, hseg3⟩ := addHead_spec
    ⟨c.capacity, (k, some c.store.length) :: c.cache, c.head, c.tail,
      c.store ++ [⟨k, v, none, none⟩]⟩
    l ⟨c.store.length, k, v⟩ none none (Seg_alloc _ _ _ _ _ h.seg) h.head h.tail h.addrNodup hfresh
    (by simp)
  have hc3 : c3.cache = (k, some c.store.length) :: c.cache := hc3
  refine ⟨c3, ?_, ?_, hcap3, hc3⟩
  · simp only [putInsert, hfil]
    exact h3
  · exact {
      addrNodup := List.nodup_cons.mpr ⟨hfresh, h.addrNodup⟩
      keyNodup := List.nodup_cons.mpr ⟨hkn, h.keyNodup⟩
      head := hh3
      tail := ht3
      seg := hseg3
      map := by rw [hc3]; exact List.Perm.cons _ h.map }

theorem Inv.cache_keyNodup {c : LRUCache} {l : List Slot} (h : Inv c l) :
    (c.cache.map Prod.fst).Nodup :=
  (h.mapKeys_perm.nodup_iff).mpr h.keyNodup

theorem filter_key_eq_filter_entry (m : List (Int × Option Nat)) (k : Int) (p : Option Nat)
    (hnd : (m.map Prod.fst).Nodup) (hmem : (k, p) ∈ m) :
    m.filter (fun e => e.1 ≠ k) = m.filter (fun e => e ≠ (k, p)) := by
  apply List.filter_congr
  intro e he
  have hl := lookup_of_mem m hnd k p hmem
  by_cases hek : e.1 = k
  · have he2 : m.lookup k = some e.2 := lookup_of_mem m hnd k e.2 (by rw [← hek]; exact he)
    rw [hl] at he2
    have : e = (k, p) := by
      cases e with
      | mk a b =>
        simp only at hek he2
        simp only [Option.some.injEq] at he2
        rw [hek, ← he2]
    simp [this]
  · have : e ≠ (k, p) := fun h => hek (by rw [h])
    simp [hek, this]

theorem putEvict_spec {c3 : LRUCache} {m : List Slot} {t : Slot} (h : Inv c3 (m ++ [t])) :
    ∃ c4 nd, popTail c3 = some (c4, some t.addr) ∧ deref c4 (some t.addr) = some nd
      ∧ nd.key = t.key ∧ c4.cache = c3.cache
      ∧ putEvict c3 = some { c4 with cache := c4.cache.filter (fun e => e.1 ≠ nd.key) }
      ∧ (t.key, some t.addr) ∈ c3.cache
      ∧ c3.cache.filter (fun e => e.1 ≠ t.key) = c3.cache.filter (fun e => e ≠ (t.key, some t.addr))
      ∧ (c3.cache.filter (fun e => e.1 ≠ t.key)).Perm (m.map (fun e => (e.key, some e.addr)))
      ∧ Inv { c4 with cache := c4.cache.filter (fun e => e.1 ≠ t.key) } m := by
  obtain ⟨c4, h4, hh4, ht4, hc4, hcap4, hseg4, p0, q0, hst4⟩ :=
    popTail_spec c3 m t h.seg h.addrNodup h.head h.tail
  have hand := h.addrNodup
  have hknd := h.keyNodup
  simp only [List.map_append, List.map_cons, List.map_nil, List.nodup_append] at hand hknd
  have htm : t.key ∉ m.map Slot.key := fun hm => hknd.2.2 hm (List.mem_singleton.mpr rfl)
  have hmem : (t.key, some t.addr) ∈ c3.cache :=
    h.map.mem_iff.mpr (List.mem_map.mpr ⟨t, by simp, rfl⟩)
  have hperm : (c3.cache.filter (fun e => e.1 ≠ t.key)).Perm
      (m.map (fun e => (e.key, some e.addr))) := by
    have hp := h.map.filter (fun x => x.1 ≠ t.key)
    refine hp.trans ?_
    rw [List.map_append, List.filter_append]
    have hm1 := filter_key_notin (m.map (fun x => (x.key, some x.addr))) t.key
      (by simpa [List.map_map, Function.comp_def] using htm)
    rw [hm1]
    simp
  refine ⟨c4, _, h4, hst4, rfl, hc4, ?_, hmem,
    filter_key_eq_filter_entry _ _ _ h.cache_keyNodup hmem, hperm, ?_⟩
  · simp only [putEvict, h4, Option.bind_eq_bind, Option.some_bind, deref, hst4]
  · exact {
      addrNodup := hand.1
      keyNodup := hknd.1
      head := hh4
      tail := ht4
      seg := hseg4
      map := by
        show (c4.cache.filter (fun x => x.1 ≠ t.key)).Perm _
        rw [hc4]; exact hperm }

/-- C12: for every capacity >= 1 and every reachable state, `Put(k, v)` has no
error outcome: it returns a state in which `k` is in the map with value `v`;
and when `k` was not in the map and the overflow branch runs, `popTail` returns
a pointer to a node of the store, not nil, so that reading `tail.key` does not
fail. -/
theorem put_never_fails (capacity : Int) (hcap : 1 ≤ capacity) (c : LRUCache)
    (hr : Reachable capacity c) (k v : Int) :
    ∃ c1, Put c k v = some c1 ∧ c1.cache.lookup k ≠ none ∧ (entries c1).lookup k = some v
      ∧ (c.cache.lookup k = none → ∃ c3, putInsert c k v = some c3
          ∧ Put c k v = (if (c3.cache.length : Int) > c3.capacity then putEvict c3 else some c3)
          ∧ ((c3.cache.length : Int) > c3.capacity →
              ∃ c4 a nd, popTail c3 = some (c4, some a) ∧ deref c4 (some a) = some nd)) := by
  obtain ⟨l, hinv, hc, -⟩ := hr.inv
  obtain ⟨c1, l1, h1, hinv1, he1, -⟩ := Put_spec hinv k v
  obtain ⟨rest, hrest⟩ := specPut_head c.capacity (by rw [hc]; exact hcap) (slotEntries l) k v
  rw [hrest] at he1
  refine ⟨c1, h1, ?_, ?_, ?_⟩
  · rw [Ne, hinv1.lookup_none]
    have : (slotEntries l1).map Prod.fst = l1.map Slot.key := by
      simp [slotEntries, List.map_map, Function.comp_def]
    rw [← this, he1]
    simp
  · rw [hinv1.entries_eq, he1]
    simp
  · intro hk
    obtain ⟨c3, h3, hinv3, -, -⟩ := putInsert_spec hinv k v hk
    refine ⟨c3, h3, by rw [Put_absent_eq c k v hk, h3, Option.some_bind], fun _ => ?_⟩
    rcases List.eq_nil_or_concat (⟨c.store.length, k, v⟩ :: l) with hnil | ⟨m, t, hmt⟩
    · simp at hnil
    · rw [List.concat_eq_append] at hmt
      rw [hmt] at hinv3
      obtain ⟨c4, nd, h4, hd, -⟩ := putEvict_spec hinv3
      exact ⟨c4, t.addr, nd, h4, hd⟩

theorem put_never_fails_witness :
    Reachable 2 ⟨2, [(2, some 1), (1, some 0)], some 1, some 0,
        [⟨1, 10, some 1, none⟩, ⟨2, 20, none, some 0⟩]⟩
      ∧ ∃ c1, Put ⟨2, [(2, some 1), (1, some 0)], some 1, some 0,
            [⟨1, 10, some 1, none⟩, ⟨2, 20, none, some 0⟩]⟩ 3 30 = some c1
        ∧ c1.cache.lookup 3 ≠ none ∧ (entries c1).lookup 3 = some 30
        ∧ (List.lookup 3 [((2 : Int), (some 1 : Option Nat)), (1, some 0)] = none →
          ∃ c3, putInsert ⟨2, [(2, some 1), (1, some 0)], some 1, some 0,
              [⟨1, 10, some 1, none⟩, ⟨2, 20, none, some 0⟩]⟩ 3 30 = some c3
            ∧ Put ⟨2, [(2, some 1), (1, some 0)], some 1, some 0,
                [⟨1, 10, some 1, none⟩, ⟨2, 20, none, some 0⟩]⟩ 3 30
              = (if (c3.cache.length : Int) > c3.capacity then putEvict c3 else some c3)
            ∧ ((c3.cache.length : Int) > c3.capacity →
                ∃ c4 a nd, popTail c3 = some (c4, some a) ∧ deref c4 (some a) = some nd)) :=
  ⟨⟨[Call.put 1 10, Call.put 2 20], by decide⟩,
    put_never_fails 2 (by decide) ⟨2, [(2, some 1), (1, some 0)], some 1, some 0,
        [⟨1, 10, some 1, none⟩, ⟨2, 20, none, some 0⟩]⟩
      ⟨[Call.put 1 10, Call.put 2 20], by decide⟩ 3 30⟩

/-- C18: in every state reachable from `NewLRUCache(capacity)` by `Put` and
`Get` calls, every map entry `k -> n` points to a node of the list whose key
field is `k`; no two nodes of the list carry the same key (and no two map
entries the same key); the list has as many nodes as the map has entries. Hence
in the overflow branch of a `Put` the node `popTail` returns is in the map under
its own key, and `delete(c.cache, tail.key)` removes that entry and no other. -/
theorem map_points_into_list (capacity : Int) (c : LRUCache) (hr : Reachable capacity c) :
    (∀ (k : Int) (p : Option Nat), (k, p) ∈ c.cache →
        ∃ a nd, p = some a ∧ a ∈ chain c ∧ c.store[a]? = some nd ∧ nd.key = k)
      ∧ (keys c).Nodup ∧ (mapKeys c).Nodup ∧ (chain c).Nodup
      ∧ (chain c).length = c.cache.length
      ∧ (∀ k v : Int, c.cache.lookup k = none → ∃ c3, putInsert c k v = some c3
          ∧ ((c3.cache.length : Int) > c3.capacity →
              ∃ c4 a nd, popTail c3 = some (c4, some a) ∧ deref c4 (some a) = some nd
                ∧ c4.cache = c3.cache ∧ (nd.key, some a) ∈ c3.cache
                ∧ c4.cache.filter (fun e => e.1 ≠ nd.key)
                    = c3.cache.filter (fun e => e ≠ (nd.key, some a))
                ∧ (c4.cache.filter (fun e => e.1 ≠ nd.key)).length + 1 = c3.cache.length
                ∧ Put c k v
                    = some { c4 with cache := c4.cache.filter (fun e => e.1 ≠ nd.key) })) := by
  obtain ⟨l, hinv, -⟩ := hr.inv
  refine ⟨?_, ?_, hinv.cache_keyNodup, ?_, ?_, ?_⟩
  · intro k p hkp
    obtain ⟨pre, e, post, rfl, rfl, rfl⟩ := hinv.find k p (lookup_of_mem _ hinv.cache_keyNodup _ _ hkp)
    refine ⟨e.addr, _, rfl, ?_, hinv.listInv.node, rfl⟩
    rw [hinv.chain_eq]
    simp
  · rw [hinv.keys_eq]; exact hinv.keyNodup
  · rw [hinv.chain_eq]; exact hinv.addrNodup
  · rw [hinv.chain_eq, List.length_map, hinv.length_eq]
  · intro k v hk
    obtain ⟨c3, h3, hinv3, -, -⟩ := putInsert_spec hinv k v hk
    refine ⟨c3, h3, fun hov => ?_⟩
    rcases List.eq_nil_or_concat (⟨c.store.length, k, v⟩ :: l) with hnil | ⟨m, t, hmt⟩
    · simp at hnil
    · rw [List.concat_eq_append] at hmt
      rw [hmt] at hinv3
      obtain ⟨c4, nd, h4, hd, hkey, hc4, hev, hmem, hfil, hperm, -⟩ := putEvict_spec hinv3
      refine ⟨c4, t.addr, nd, h4, hd, hc4, by rw [hkey]; exact hmem, by rw [hkey, hc4]; exact hfil,
        ?_, ?_⟩
      · rw [hkey, hc4, hperm.length_eq, hinv3.length_eq]
        simp
      · rw [Put_absent_eq c k v hk, h3, Option.some_bind, if_pos hov, hev]

theorem map_points_into_list_witness :
    Reachable 2 ⟨2, [(2, some 1), (1, some 0)], some 1, some 0,
        [⟨1, 10, some 1, none⟩, ⟨2, 20, none, some 0⟩]⟩
      ∧ ((∀ (k : Int) (p : Option Nat), (k, p) ∈ [((2 : Int), (some 1 : Option Nat)), (1, some 0)] →
          ∃ a nd, p = some a ∧ a ∈ chain ⟨2, [(2, some 1), (1, some 0)], some 1, some 0,
              [⟨1, 10, some 1, none⟩, ⟨2, 20, none, some 0⟩]⟩
            ∧ [(⟨1, 10, some 1, none⟩ : listNode), ⟨2, 20, none, some 0⟩][a]? = some nd
            ∧ nd.key = k)
        ∧ (keys ⟨2, [(2, some 1), (1, some 0)], some 1, some 0,
            [⟨1, 10, some 1, none⟩, ⟨2, 20, none, some 0⟩]⟩).Nodup
        ∧ (mapKeys ⟨2, [(2, some 1), (1, some 0)], some 1, some 0,
            [⟨1, 10, some 1, none⟩, ⟨2, 20, none, some 0⟩]⟩).Nodup
        ∧ (chain ⟨2, [(2, some 1), (1, some 0)], some 1, some 0,
            [⟨1, 10, some 1, none⟩, ⟨2, 20, none, some 0⟩]⟩).Nodup
        ∧ (chain ⟨2, [(2, some 1), (1, some 0)], some 1, some 0,
            [⟨1, 10, some 1, none⟩, ⟨2, 20, none, some 0⟩]⟩).length
            = [((2 : Int), (some 1 : Option Nat)), (1, some 0)].length
        ∧ (∀ k v : Int, List.lookup k [((2 : Int), (some 1 : Option Nat)), (1, some 0)] = none →
            ∃ c3, putInsert ⟨2, [(2, some 1), (1, some 0)], some 1, some 0,
                [⟨1, 10, some 1, none⟩, ⟨2, 20, none, some 0⟩]⟩ k v = some c3
              ∧ ((c3.cache.length : Int) > c3.capacity →
                ∃ c4 a nd, popTail c3 = some (c4, some a) ∧ deref c4 (some a) = some nd
                  ∧ c4.cache = c3.cache ∧ (nd.key, some a) ∈ c3.cache
                  ∧ c4.cache.filter (fun e => e.1 ≠ nd.key)
                      = c3.cache.filter (fun e => e ≠ (nd.key, some a))
                  ∧ (c4.cache.filter (fun e => e.1 ≠ nd.key)).length + 1 = c3.cache.length
                  ∧ Put ⟨2, [(2, some 1), (1, some 0)], some 1, some 0,
                      [⟨1, 10, some 1, none⟩, ⟨2, 20, none, some 0⟩]⟩ k v
                    = some { c4 with cache := c4.cache.filter (fun e => e.1 ≠ nd.key) }))) :=
  ⟨⟨[Call.put 1 10, Call.put 2 20], by decide⟩,
    map_points_into_list 2 ⟨2, [(2, some 1), (1, some 0)], some 1, some 0,
        [⟨1, 10, some 1, none⟩, ⟨2, 20, none, some 0⟩]⟩
      ⟨[Call.put 1 10, Call.put 2 20], by decide⟩⟩

/-- C15: in every reachable state `Get(k)` succeeds, and it returns -1 if and
only if `k` is not in the map or the value stored for `k` is -1. When the value
stored is -1 the key is in the map, `Get` returns -1 and the node of `k` is the
head afterwards. In particular, for capacity >= 1, after `Put(k, -1)` the key is
in the map and `Get(k)` returns -1 and leaves `k` at the head. -/
theorem get_minus_one (capacity : Int) (c : LRUCache) (hr : Reachable capacity c) (k : Int) :
    ∃ c1 r, Get c k = some (c1, r)
      ∧ (r = -1 ↔ (c.cache.lookup k = none ∨ (entries c).lookup k = some (-1)))
      ∧ ((entries c).lookup k = some (-1) →
          c.cache.lookup k ≠ none ∧ r = -1 ∧ (keys c1).head? = some k)
      ∧ (1 ≤ capacity → ∃ c2 c3, Put c k (-1) = some c2 ∧ c2.cache.lookup k ≠ none
          ∧ Get c2 k = some (c3, -1) ∧ (keys c3).head? = some k) := by
  obtain ⟨l, hinv, hc, -⟩ := hr.inv
  have hkeysS : ∀ l : List Slot, (slotEntries l).map Prod.fst = l.map Slot.key := fun l => by
    simp [slotEntries, List.map_map, Function.comp_def]
  have hput : 1 ≤ capacity → ∃ c2 c3, Put c k (-1) = some c2 ∧ c2.cache.lookup k ≠ none
      ∧ Get c2 k = some (c3, -1) ∧ (keys c3).head? = some k := by
    intro hcap
    obtain ⟨c2, l2, h2, hinv2, he2, -⟩ := Put_spec hinv k (-1)
    obtain ⟨rest, hrest⟩ := specPut_head c.capacity (by rw [hc]; exact hcap) (slotEntries l) k (-1)
    rw [hrest] at he2
    obtain ⟨c3, l3, h3, hinv3, he3, -⟩ := Get_spec hinv2 k
    rw [he2] at h3 he3
    simp only [specGet, List.lookup_cons_self] at h3 he3
    refine ⟨c2, c3, h2, ?_, h3, ?_⟩
    · rw [Ne, hinv2.lookup_none, ← hkeysS, he2]
      simp
    · rw [hinv3.keys_eq, ← hkeysS, he3]
      rfl
  cases hk : c.cache.lookup k with
  | none =>
    have hn := slotEntries_lookup_none l k ((hinv.lookup_none k).mp hk)
    refine ⟨c, -1, by simp only [Get, hk], ?_, ?_, hput⟩
    · simp
    · intro h
      rw [hinv.entries_eq, hn] at h
      cases h
  | some n =>
    obtain ⟨c1, pre, e, post, rfl, rfl, rfl, h1, hinv1, -, -⟩ := Get_hit hinv k n hk
    have hl := slotEntries_lookup pre post e hinv.keyNodup
    refine ⟨c1, e.value, h1, ?_, ?_, hput⟩
    · rw [hinv.entries_eq, hl]
      simp
    · intro h
      rw [hinv.entries_eq, hl, Option.some.injEq] at h
      refine ⟨by simp, h, ?_⟩
      rw [hinv1.keys_eq]
      rfl

theorem get_minus_one_witness :
    Reachable 2 ⟨2, [(2, some 1), (1, some 0)], some 1, some 0,
        [⟨1, -1, some 1, none⟩, ⟨2, 20, none, some 0⟩]⟩
      ∧ ∃ c1 r, Get ⟨2, [(2, some 1), (1, some 0)], some 1, some 0,
            [⟨1, -1, some 1, none⟩, ⟨2, 20, none, some 0⟩]⟩ 1 = some (c1, r)
        ∧ (r = -1 ↔ (List.lookup 1 [((2 : Int), (some 1 : Option Nat)), (1, some 0)] = none
            ∨ (entries ⟨2, [(2, some 1), (1, some 0)], some 1, some 0,
                [⟨1, -1, some 1, none⟩, ⟨2, 20, none, some 0⟩]⟩).lookup 1 = some (-1)))
        ∧ ((entries ⟨2, [(2, some 1), (1, some 0)], some 1, some 0,
                [⟨1, -1, some 1, none⟩, ⟨2, 20, none, some 0⟩]⟩).lookup 1 = some (-1) →
            List.lookup 1 [((2 : Int), (some 1 : Option Nat)), (1, some 0)] ≠ none
              ∧ r = -1 ∧ (keys c1).head? = some 1)
        ∧ ((1 : Int) ≤ 2 → ∃ c2 c3, Put ⟨2, [(2, some 1), (1, some 0)], some 1, some 0,
              [⟨1, -1, some 1, none⟩, ⟨2, 20, none, some 0⟩]⟩ 1 (-1) = some c2
            ∧ c2.cache.lookup 1 ≠ none
            ∧ Get c2 1 = some (c3, -1) ∧ (keys c3).head? = some 1) :=
  ⟨⟨[Call.put 1 (-1), Call.put 2 20], by decide⟩,
    get_minus_one 2 ⟨2, [(2, some 1), (1, some 0)], some 1, some 0,
        [⟨1, -1, some 1, none⟩, ⟨2, 20, none, some 0⟩]⟩
      ⟨[Call.put 1 (-1), Call.put 2 20], by decide⟩ 1⟩

/-! ## The number of entries -/

theorem putKeys_append (ops1 ops2 : List Call) :
    putKeys (ops1 ++ ops2) = putKeys ops1 ++ putKeys ops2 := by
  induction ops1 with
  | nil => rfl
  | cons op ops ih =>
    cases op with
    | put k v => simp [putKeys, ih]
    | get k => simp [putKeys, ih]

theorem touches_mem_putKeys (capacity : Int) (hcap : 1 ≤ capacity) (calls : List Call) (k : Int) :
    k ∈ touches (NewLRUCache capacity) calls ↔ k ∈ putKeys calls := by
  induction calls using List.reverseRecOn generalizing k with
  | nil => simp [touches, putKeys]
  | append_singleton ops op ih =>
    obtain ⟨c, l, hrun, hinv, -, -, hkeys⟩ := recency_inv capacity hcap ops
    have hts : touches (NewLRUCache capacity) (ops ++ [op])
        = touches (NewLRUCache capacity) ops ++ touched c op := by
      rw [touches_append, hrun]
      simp only [touches_single]
    rw [hts, putKeys_append, List.mem_append, List.mem_append, ih]
    cases op with
    | put j v => simp [touched, putKeys]
    | get j =>
      simp only [touched, putKeys, List.not_mem_nil, or_false]
      constructor
      · rintro (h | h)
        · exact h
        · cases hl : c.cache.lookup j with
          | none => simp [hl] at h
          | some p =>
            simp only [hl, Option.isSome_some, if_true, List.mem_singleton] at h
            subst h
            have hm : k ∈ l.map Slot.key := by
              by_contra hn
              rw [(hinv.lookup_none k).mpr hn] at hl
              cases hl
            rw [hkeys] at hm
            exact (ih k).mp ((mem_recencyOrder _ k).mp (List.mem_of_mem_take hm))
      · exact Or.inl

theorem recencyOrder_length (capacity : Int) (hcap : 1 ≤ capacity) (calls : List Call) :
    (recencyOrder (touches (NewLRUCache capacity) calls)).length = (putKeys calls).dedup.length := by
  rw [← List.toFinset_card_of_nodup (nodup_recencyOrder _), ← List.card_toFinset]
  congr 1
  ext k
  rw [List.mem_toFinset, List.mem_toFinset, mem_recencyOrder,
    touches_mem_putKeys capacity hcap calls k]

theorem specPut_length_ge (capacity : Int) (es : List (Int × Int)) (k v : Int)
    (hnd : (es.map Prod.fst).Nodup) : es.length ≤ (specPut capacity es k v).length := by
  unfold specPut
  cases hk : es.lookup k with
  | none =>
    simp only
    split
    · simp
    · simp
  | some w =>
    have := specGet_length es k hnd
    simp only [specGet, hk, List.length_cons] at this
    simp only [List.length_cons]
    omega

theorem run_mono {c : LRUCache} {l : List Slot} (h : Inv c l) (ops : List Call)
    (hle : (l.length : Int) ≤ c.capacity) :
    ∃ c1 l1, run c ops = some c1 ∧ Inv c1 l1 ∧ c1.capacity = c.capacity
      ∧ l.length ≤ l1.length ∧ (l1.length : Int) ≤ c.capacity := by
  induction ops generalizing c l with
  | nil => exact ⟨c, l, rfl, h, rfl, le_refl _, hle⟩
  | cons op ops ih =>
    obtain ⟨c1, l1, h1, hinv1, he1, hcap1, hle1⟩ := step_bound h op hle
    obtain ⟨c2, l2, h2, hinv2, hcap2, hmono, hle2⟩ := ih hinv1 hle1
    have hnd := slotEntries_keyNodup l h.keyNodup
    have hlen : ∀ l : List Slot, (slotEntries l).length = l.length := fun l => by
      simp [slotEntries]
    have hstep : l.length ≤ l1.length := by
      rw [← hlen l, ← hlen l1, he1]
      cases op with
      | put k v => exact specPut_length_ge _ _ _ _ hnd
      | get k => exact le_of_eq (specGet_length _ _ hnd).symm
    exact ⟨c2, l2, by simp [run, h1, h2], hinv2, hcap2.trans hcap1, le_trans hstep hmono,
      by rw [← hcap1]; exact hle2⟩

/-- C17: for every capacity >= 1 and every sequence of calls applied to
`NewLRUCache(capacity)`, the calls succeed and the number of entries of the map
is the minimum of `capacity` and the number of distinct keys passed to `Put`;
across any further calls (one `Put` or `Get`, or any number of them) the number
of entries does not decrease, and if it was `capacity` it stays `capacity`. -/
theorem size_is_min (capacity : Int) (hcap : 1 ≤ capacity) (calls : List Call) :
    ∃ c, run (NewLRUCache capacity) calls = some c
      ∧ (c.cache.length : Int) = min capacity ((putKeys calls).dedup.length : Int)
      ∧ (∀ op : Call, ∃ c1, step c op = some c1 ∧ c.cache.length ≤ c1.cache.length)
      ∧ (∀ more : List Call, ∃ c1, run c more = some c1 ∧ c.cache.length ≤ c1.cache.length
          ∧ ((c.cache.length : Int) = capacity → (c1.cache.length : Int) = capacity)) := by
  obtain ⟨c, l, hrun, hinv, hc, hle, hkeys⟩ := recency_inv capacity hcap calls
  have hmore : ∀ more : List Call, ∃ c1, run c more = some c1 ∧ c.cache.length ≤ c1.cache.length
      ∧ ((c.cache.length : Int) = capacity → (c1.cache.length : Int) = capacity) := by
    intro more
    obtain ⟨c1, l1, h1, hinv1, -, hmono, hle1⟩ := run_mono hinv more (by rw [hc]; exact hle)
    rw [hc] at hle1
    refine ⟨c1, h1, by rw [hinv.length_eq, hinv1.length_eq]; exact hmono, fun hfull => ?_⟩
    rw [hinv.length_eq] at hfull
    rw [hinv1.length_eq]
    omega
  refine ⟨c, hrun, ?_, ?_, hmore⟩
  · have hlen : l.length = min capacity.toNat
        (recencyOrder (touches (NewLRUCache capacity) calls)).length := by
      have := congrArg List.length hkeys
      simpa using this
    rw [hinv.length_eq, hlen, recencyOrder_length capacity hcap calls]
    omega
  · intro op
    obtain ⟨c1, h1, hmono, -⟩ := hmore [op]
    refine ⟨c1, ?_, hmono⟩
    simp only [run] at h1
    cases hs : step c op with
    | none => rw [hs] at h1; cases h1
    | some c2 => rw [hs] at h1; simpa using h1

theorem size_is_min_witness :
    ∃ c, run (NewLRUCache 2) [Call.put 1 1, Call.put 2 2, Call.get 1, Call.put 3 3, Call.put 1 5]
        = some c
      ∧ (c.cache.length : Int) = min 2 (((putKeys
          [Call.put 1 1, Call.put 2 2, Call.get 1, Call.put 3 3, Call.put 1 5]).dedup.length : Nat)
            : Int)
      ∧ (∀ op : Call, ∃ c1, step c op = some c1 ∧ c.cache.length ≤ c1.cache.length)
      ∧ (∀ more : List Call, ∃ c1, run c more = some c1 ∧ c.cache.length ≤ c1.cache.length
          ∧ ((c.cache.length : Int) = 2 → (c1.cache.length : Int) = 2)) :=
  size_is_min 2 (by decide) [Call.put 1 1, Call.put 2 2, Call.get 1, Call.put 3 3, Call.put 1 5]

/-! ## `moveToHead` is the splice followed by `addHead` -/

theorem specSplice_eq_unlink (c : LRUCache) (pre post : List Slot) (x e : Slot)
    (hseg : Seg c.store none (pre ++ x :: e :: post) none)
    (hnd : ((pre ++ x :: e :: post).map Slot.addr).Nodup)
    (htail : c.tail = lastAddr none (pre ++ x :: e :: post)) :
    specSplice c (some e.addr) = unlink c (some e.addr) := by
  rw [Seg_append] at hseg
  obtain ⟨hpre, hx, he, hpost⟩ := hseg
  simp only [List.map_append, List.map_cons, List.nodup_append, List.nodup_cons, List.mem_cons,
    not_or, List.disjoint_cons_right] at hnd
  obtain ⟨hndpre, ⟨⟨hxe, hxpost⟩, hepost, hndpost⟩, hxpre, hepre, hdisj⟩ := hnd
  cases post with
  | nil =>
    have ht : c.tail = some e.addr := by
      rw [htail, lastAddr_append, lastAddr_cons, lastAddr_cons]; rfl
    simp [unlink, specSplice, deref, assign, he, hx, List.getElem?_set_ne hxe, ht, firstAddr]
  | cons y post1 =>
    simp only [List.map_cons, List.mem_cons, not_or, List.nodup_cons] at hxpost hepost hndpost
    have hy := hpost.1
    have hne : some e.addr ≠ c.tail := by
      rw [htail, lastAddr_append, lastAddr_cons, lastAddr_cons, lastAddr_cons]
      intro h
      rcases lastAddr_mem _ _ _ h.symm with h1 | h1
      · exact hepost.1 h1
      · exact hepost.2 h1
    have hxy : x.addr ≠ y.addr := hxpost.1
    have hye : y.addr ≠ e.addr := fun h => hepost.1 h.symm
    simp [unlink, specSplice, deref, assign, he, hx, List.getElem?_set_ne hxe, firstAddr, hne,
      List.getElem?_set_ne hxy, hy, List.getElem?_set_ne hye]
/-- C19: in every state whose list is well formed, for every node `n` of the
list, `moveToHead(n)` does what the design document says: it returns the state
unchanged when `n` is the head; otherwise the splice of `n` (its neighbours
joined, the tail moved to the former `prev` of `n` when `n` was the tail)
succeeds, `addHead(n)` on its result succeeds, and `moveToHead(n)` returns
exactly that state. The tail in it is the tail the splice left, which is not
nil and not `n`: the tail assignment of `addHead` does not fire. -/
theorem moveToHead_refines (c : LRUCache) (l : List Slot) (h : ListInv c l) (a : Nat)
    (ha : a ∈ l.map Slot.addr) :
    moveToHead c (some a) = specMoveToHead c (some a)
      ∧ (some a = c.head → moveToHead c (some a) = some c)
      ∧ (some a ≠ c.head → ∃ nd c1 c2, deref c (some a) = some nd
          ∧ specSplice c (some a) = some c1 ∧ addHead c1 (some a) = some c2
          ∧ moveToHead c (some a) = some c2
          ∧ (some a = c.tail → c1.tail = nd.prev)
          ∧ c1.tail ≠ none ∧ c2.tail = c1.tail ∧ c2.tail ≠ some a ∧ c2.head = some a) := by
  obtain ⟨e, he, rfl⟩ := List.mem_map.mp ha
  obtain ⟨pre, post, rfl⟩ := List.append_of_mem he
  rcases List.eq_nil_or_concat pre with rfl | ⟨pre1, x, rfl⟩
  · have hh : c.head = some e.addr := h.head
    refine ⟨?_, fun _ => ?_, fun hne => absurd hh.symm hne⟩
    · simp [moveToHead, specMoveToHead, hh]
    · simp [moveToHead, hh]
  · have hl : List.concat pre1 x ++ e :: post = pre1 ++ x :: e :: post := by simp
    rw [hl] at h
    have hnd := h.addrNodup
    have hnd2 := hnd
    simp only [List.map_append, List.map_cons, List.nodup_append, List.nodup_cons, List.mem_cons,
      not_or, List.disjoint_cons_right, List.mem_append] at hnd2
    obtain ⟨hndpre, ⟨⟨hxe, hxpost⟩, hepost, hndpost⟩, hxpre, hepre, hdisj⟩ := hnd2
    have hne : some e.addr ≠ c.head := by
      rw [h.head, firstAddr_append]
      intro heq
      have hm := firstAddr_mem (pre1 ++ [x]) e.addr (by
        rw [firstAddr_append]
        cases pre1 <;> simpa [firstAddr] using heq.symm)
      simp only [List.map_append, List.map_cons, List.map_nil, List.mem_append,
        List.mem_singleton] at hm
      rcases hm with hm | hm
      · exact hepre hm
      · exact hxe hm.symm
    obtain ⟨c1, h1, hh1, ht1, hc1, hcap1, hseg1, p0, q0, hst1⟩ :=
      unlink_spec c pre1 post x e h.seg hnd h.tail
    have hnd3 : ((pre1 ++ x :: post).map Slot.addr).Nodup
        ∧ e.addr ∉ (pre1 ++ x :: post).map Slot.addr := by
      simp only [List.map_append, List.map_cons, List.nodup_append, List.nodup_cons, List.mem_cons,
        not_or, List.disjoint_cons_right, List.mem_append]
      exact ⟨⟨hndpre, ⟨hxpost, hndpost⟩, hxpre, hdisj⟩, hepre, fun h => hxe h.symm, hepost⟩
    obtain ⟨c2, h2, hh2, ht2, hc2, hcap2, hseg2⟩ := relink_spec c1 (pre1 ++ x :: post) e p0 q0 hseg1
      (by rw [hh1, h.head, firstAddr_append, firstAddr_append]; rfl) hnd3.1 hnd3.2 hst1
    have hsp : specSplice c (some e.addr) = some c1 := by
      rw [specSplice_eq_unlink c pre1 post x e h.seg hnd h.tail, h1]
    have htl : c1.tail = lastAddr (some x.addr) post := by
      rw [ht1, lastAddr_append, lastAddr_cons]
    have htne : c1.tail ≠ none := by
      rw [htl]
      unfold lastAddr
      cases post.getLast? <;> simp
    have htna : c1.tail ≠ some e.addr := by
      rw [htl]
      intro heq
      rcases lastAddr_mem _ _ _ heq with h3 | h3
      · exact hxe h3.symm
      · exact hepost h3
    have hadd : addHead c1 (some e.addr) = some c2 := by
      rw [addHead_eq_relink, h2, Option.map_some', if_neg (by rw [ht2]; exact htne)]
    have hmove : moveToHead c (some e.addr) = some c2 := by
      rw [moveToHead_eq, if_neg hne, h1, Option.some_bind, h2]
    refine ⟨?_, fun heq => absurd heq hne, fun _ => ?_⟩
    · rw [hmove]
      simp only [specMoveToHead, if_neg hne, hsp, Option.some_bind, hadd]
    · have hen : c.store[e.addr]? = some ⟨e.key, e.value, some x.addr, firstAddr post none⟩ :=
        ((Seg_append _ _ _ _ _).mp h.seg).2.2.1
      refine ⟨_, c1, c2, hen, hsp, hadd, hmove, ?_, htne, ht2, by rw [ht2]; exact htna, hh2⟩
      intro htail
      have hpost : post = [] := by
        cases post with
        | nil => rfl
        | cons y r =>
          exfalso
          rw [h.tail, lastAddr_append, lastAddr_cons, lastAddr_cons, lastAddr_cons] at htail
          simp only [List.map_cons, List.mem_cons, not_or] at hepost
          rcases lastAddr_mem _ _ _ htail.symm with h3 | h3
          · exact hepost.1 h3
          · exact hepost.2 h3
      subst hpost
      rw [htl]
      rfl

theorem moveToHead_refines_witness :
    ListInv ⟨3, [(3, some 2), (2, some 1), (1, some 0)], some 2, some 0,
        [⟨1, 10, some 1, none⟩, ⟨2, 20, some 2, some 0⟩, ⟨3, 30, none, some 1⟩]⟩
        [⟨2, 3, 30⟩, ⟨1, 2, 20⟩, ⟨0, 1, 10⟩]
      ∧ 0 ∈ ([⟨2, 3, 30⟩, ⟨1, 2, 20⟩, ⟨0, 1, 10⟩] : List Slot).map Slot.addr
      ∧ (moveToHead ⟨3, [(3, some 2), (2, some 1), (1, some 0)], some 2, some 0,
            [⟨1, 10, some 1, none⟩, ⟨2, 20, some 2, some 0⟩, ⟨3, 30, none, some 1⟩]⟩ (some 0)
          = specMoveToHead ⟨3, [(3, some 2), (2, some 1), (1, some 0)], some 2, some 0,
            [⟨1, 10, some 1, none⟩, ⟨2, 20, some 2, some 0⟩, ⟨3, 30, none, some 1⟩]⟩ (some 0)
        ∧ ((some 0 : Option Nat) = some 2 →
            moveToHead ⟨3, [(3, some 2), (2, some 1), (1, some 0)], some 2, some 0,
              [⟨1, 10, some 1, none⟩, ⟨2, 20, some 2, some 0⟩, ⟨3, 30, none, some 1⟩]⟩ (some 0)
            = some ⟨3, [(3, some 2), (2, some 1), (1, some 0)], some 2, some 0,
              [⟨1, 10, some 1, none⟩, ⟨2, 20, some 2, some 0⟩, ⟨3, 30, none, some 1⟩]⟩)
        ∧ ((some 0 : Option Nat) ≠ some 2 → ∃ nd c1 c2,
            deref ⟨3, [(3, some 2), (2, some 1), (1, some 0)], some 2, some 0,
              [⟨1, 10, some 1, none⟩, ⟨2, 20, some 2, some 0⟩, ⟨3, 30, none, some 1⟩]⟩ (some 0)
              = some nd
            ∧ specSplice ⟨3, [(3, some 2), (2, some 1), (1, some 0)], some 2, some 0,
              [⟨1, 10, some 1, none⟩, ⟨2, 20, some 2, some 0⟩, ⟨3, 30, none, some 1⟩]⟩ (some 0)
              = some c1
            ∧ addHead c1 (some 0) = some c2
            ∧ moveToHead ⟨3, [(3, some 2), (2, some 1), (1, some 0)], some 2, some 0,
              [⟨1, 10, some 1, none⟩, ⟨2, 20, some 2, some 0⟩, ⟨3, 30, none, some 1⟩]⟩ (some 0)
              = some c2
            ∧ ((some 0 : Option Nat) = some 0 → c1.tail = nd.prev)
            ∧ c1.tail ≠ none ∧ c2.tail = c1.tail ∧ c2.tail ≠ some 0 ∧ c2.head = some 0)) :=
  ⟨⟨by decide, rfl, rfl, ⟨rfl, rfl, rfl, trivial⟩⟩, by decide,
    moveToHead_refines ⟨3, [(3, some 2), (2, some 1), (1, some 0)], some 2, some 0,
        [⟨1, 10, some 1, none⟩, ⟨2, 20, some 2, some 0⟩, ⟨3, 30, none, some 1⟩]⟩
      [⟨2, 3, 30⟩, ⟨1, 2, 20⟩, ⟨0, 1, 10⟩]
      ⟨by decide, rfl, rfl, ⟨rfl, rfl, rfl, trivial⟩⟩ 0 (by decide)⟩

/-! ## `popTail` -/

/-- C20: in every state whose list is well formed, `popTail` removes and
returns the tail node. On the empty list it returns nil and the state
unchanged. On a list of one node it returns that node and only sets `head` and
`tail` to nil. On a longer list it returns the tail node, the new tail is the
former `prev` of that node, with its `next` link set to nil, and nothing else
changes (head, map, every other node and link). In both cases the list
afterwards is well formed and is the old list without its last node. -/
theorem popTail_correct (c : LRUCache) (l : List Slot) (h : ListInv c l) :
    (l = [] → popTail c = some (c, none))
      ∧ (∀ t : Slot, l = [t] →
          popTail c = some ({ c with head := none, tail := none }, some t.addr))
      ∧ (∀ (m : List Slot) (x t : Slot), l = m ++ [x, t] → ∃ xd td,
          deref c (some x.addr) = some xd ∧ deref c c.tail = some td ∧ td.prev = some x.addr
          ∧ popTail c = some (⟨c.capacity, c.cache, c.head, some x.addr,
              c.store.set x.addr { xd with next := none }⟩, some t.addr))
      ∧ (∀ (m : List Slot) (t : Slot), l = m ++ [t] → ∃ c1,
          popTail c = some (c1, some t.addr) ∧ c.tail = some t.addr ∧ ListInv c1 m
          ∧ chain c1 = (chain c).dropLast ∧ c1.cache = c.cache ∧ c1.capacity = c.capacity) := by
  refine ⟨?_, ?_, ?_, ?_⟩
  · rintro rfl
    have ht : c.tail = none := h.tail
    simp [popTail, ht]
  · rintro t rfl
    have ht : c.tail = some t.addr := h.tail
    have hst : c.store[t.addr]? = some ⟨t.key, t.value, none, none⟩ := h.seg.1
    simp [popTail, ht, deref, hst]
  · rintro m x t rfl
    have ht : c.tail = some t.addr := by
      rw [h.tail, show m ++ [x, t] = (m ++ [x]) ++ [t] by simp, lastAddr_concat]
    have hseg := (Seg_append _ _ _ _ _).mp h.seg
    have hx : c.store[x.addr]? = some ⟨x.key, x.value, lastAddr none m, some t.addr⟩ := hseg.2.1
    have hst : c.store[t.addr]? = some ⟨t.key, t.value, some x.addr, none⟩ := hseg.2.2.1
    have hnd := h.addrNodup
    simp only [List.map_append, List.map_cons, List.map_nil, List.nodup_append, List.nodup_cons,
      List.mem_cons, List.not_mem_nil, or_false] at hnd
    have hxt : x.addr ≠ t.addr := hnd.2.1.1
    refine ⟨_, _, hx, by rw [ht]; exact hst, rfl, ?_⟩
    simp [popTail, ht, deref, hst, assign, hx, List.getElem?_set_ne hxt]
  · rintro m t rfl
    obtain ⟨c1, h1, hh1, ht1, hc1, hcap1, hseg1, -⟩ :=
      popTail_spec c m t h.seg h.addrNodup h.head h.tail
    have hnd := h.addrNodup
    simp only [List.map_append, List.nodup_append] at hnd
    have hl1 : ListInv c1 m := { addrNodup := hnd.1, head := hh1, tail := ht1, seg := hseg1 }
    refine ⟨c1, h1, by rw [h.tail, lastAddr_concat], hl1, ?_, hc1, hcap1⟩
    rw [hl1.chain_addrs, h.chain_addrs, List.map_append, List.map_cons, List.map_nil,
      List.dropLast_concat]

theorem popTail_correct_witness :
    ListInv ⟨3, [(3, some 2), (2, some 1), (1, some 0)], some 2, some 0,
        [⟨1, 10, some 1, none⟩, ⟨2, 20, some 2, some 0⟩, ⟨3, 30, none, some 1⟩]⟩
        [⟨2, 3, 30⟩, ⟨1, 2, 20⟩, ⟨0, 1, 10⟩]
      ∧ ((([⟨2, 3, 30⟩, ⟨1, 2, 20⟩, ⟨0, 1, 10⟩] : List Slot) = [] →
          popTail ⟨3, [(3, some 2), (2, some 1), (1, some 0)], some 2, some 0,
              [⟨1, 10, some 1, none⟩, ⟨2, 20, some 2, some 0⟩, ⟨3, 30, none, some 1⟩]⟩
            = some (⟨3, [(3, some 2), (2, some 1), (1, some 0)], some 2, some 0,
              [⟨1, 10, some 1, none⟩, ⟨2, 20, some 2, some 0⟩, ⟨3, 30, none, some 1⟩]⟩, none))
        ∧ (∀ t : Slot, ([⟨2, 3, 30⟩, ⟨1, 2, 20⟩, ⟨0, 1, 10⟩] : List Slot) = [t] →
          popTail ⟨3, [(3, some 2), (2, some 1), (1, some 0)], some 2, some 0,
              [⟨1, 10, some 1, none⟩, ⟨2, 20, some 2, some 0⟩, ⟨3, 30, none, some 1⟩]⟩
            = some (⟨3, [(3, some 2), (2, some 1), (1, some 0)], none, none,
              [⟨1, 10, some 1, none⟩, ⟨2, 20, some 2, some 0⟩, ⟨3, 30, none, some 1⟩]⟩,
              some t.addr))
        ∧ (∀ (m : List Slot) (x t : Slot),
          ([⟨2, 3, 30⟩, ⟨1, 2, 20⟩, ⟨0, 1, 10⟩] : List Slot) = m ++ [x, t] → ∃ xd td,
            deref ⟨3, [(3, some 2), (2, some 1), (1, some 0)], some 2, some 0,
              [⟨1, 10, some 1, none⟩, ⟨2, 20, some 2, some 0⟩, ⟨3, 30, none, some 1⟩]⟩
              (some x.addr) = some xd
            ∧ deref ⟨3, [(3, some 2), (2, some 1), (1, some 0)], some 2, some 0,
              [⟨1, 10, some 1, none⟩, ⟨2, 20, some 2, some 0⟩, ⟨3, 30, none, some 1⟩]⟩
              (some 0) = some td
            ∧ td.prev = some x.addr
            ∧ popTail ⟨3, [(3, some 2), (2, some 1), (1, some 0)], some 2, some 0,
              [⟨1, 10, some 1, none⟩, ⟨2, 20, some 2, some 0⟩, ⟨3, 30, none, some 1⟩]⟩
              = some (⟨3, [(3, some 2), (2, some 1), (1, some 0)], some 2, some x.addr,
                  ([⟨1, 10, some 1, none⟩, ⟨2, 20, some 2, some 0⟩,
                    ⟨3, 30, none, some 1⟩] : List listNode).set x.addr
                    { xd with next := none }⟩, some t.addr))
        ∧ (∀ (m : List Slot) (t : Slot),
          ([⟨2, 3, 30⟩, ⟨1, 2, 20⟩, ⟨0, 1, 10⟩] : List Slot) = m ++ [t] → ∃ c1,
            popTail ⟨3, [(3, some 2), (2, some 1), (1, some 0)], some 2, some 0,
              [⟨1, 10, some 1, none⟩, ⟨2, 20, some 2, some 0⟩, ⟨3, 30, none, some 1⟩]⟩
              = some (c1, some t.addr)
            ∧ (some 0 : Option Nat) = some t.addr ∧ ListInv c1 m
            ∧ chain c1 = (chain ⟨3, [(3, some 2), (2, some 1), (1, some 0)], some 2, some 0,
              [⟨1, 10, some 1, none⟩, ⟨2, 20, some 2, some 0⟩, ⟨3, 30, none, some 1⟩]⟩).dropLast
            ∧ c1.cache = [(3, some 2), (2, some 1), (1, some 0)] ∧ c1.capacity = 3)) :=
  ⟨⟨by decide, rfl, rfl, ⟨rfl, rfl, rfl, trivial⟩⟩,
    popTail_correct ⟨3, [(3, some 2), (2, some 1), (1, some 0)], some 2, some 0,
        [⟨1, 10, some 1, none⟩, ⟨2, 20, some 2, some 0⟩, ⟨3, 30, none, some 1⟩]⟩
      [⟨2, 3, 30⟩, ⟨1, 2, 20⟩, ⟨0, 1, 10⟩]
      ⟨by decide, rfl, rfl, ⟨rfl, rfl, rfl, trivial⟩⟩⟩

end LRU
